import Mathlib

/-
  Verification development for the `schedules` repository
  (ClassSetup.py and ClassArchive.py).

  The filesystem is modelled shallowly as an association list from paths
  (lists of name components) to entries (directories or files with string
  contents).  Looking a path up returns the first matching entry, mirroring
  a store where each real filesystem state has exactly one entry per path.
  Operations that can raise an OSError in Python return `Option`.
  Every filesystem mutation is also recorded in an event log so that
  "number of mutations performed" is observable.
-/

namespace Schedules

abbrev Path := List String

inductive Entry where
  | dir : Entry
  | file (content : String) : Entry
deriving DecidableEq

abbrev FS := List (Path × Entry)

/-- A course record: an insertion-ordered mapping of field name to value,
as parsed from the JSON course data. -/
abbrev Course := List (String × String)

/-- First entry stored at a path, if any. -/
def lookupFS : FS → Path → Option Entry
  | [], _ => none
  | e :: rest, p => if e.1 = p then some e.2 else lookupFS rest p

/-- `os.path.exists`. -/
def path_exists (fs : FS) (p : Path) : Bool :=
  (lookupFS fs p).isSome

/-- `os.path.isdir`. -/
def isdir (fs : FS) (p : Path) : Bool :=
  match lookupFS fs p with
  | some .dir => true
  | _ => false

/-- If `q` is a direct child of `p`, return its final name component. -/
def childName (p q : Path) : Option String :=
  match q.drop p.length with
  | [n] => if q.take p.length = p then some n else none
  | _ => none

/-- `os.listdir`: names of the direct children recorded for `p`. -/
def listdir (fs : FS) (p : Path) : List String :=
  fs.filterMap (fun e => childName p e.1)

/-- All nonempty prefixes of a path, shortest first (including the path itself). -/
def pathPrefixes (p : Path) : List Path :=
  (List.range p.length).map (fun i => p.take (i + 1))

/-- All nonempty proper prefixes of a path (its ancestors). -/
def properPrefixes (p : Path) : List Path :=
  (List.range (p.length - 1)).map (fun i => p.take (i + 1))

/-- Well-formedness of a modelled filesystem state: every stored path has all
of its ancestors stored as directories.  Every reachable state of a real
filesystem satisfies this. -/
def wf (fs : FS) : Bool :=
  fs.all (fun e => (properPrefixes e.1).all (fun q => isdir fs q))

/-- Create each of the given paths as a directory unless it already is one;
fail (like `os.makedirs`) if one of them exists as a non-directory. -/
def mkdirPrefixes : FS → List Path → Option FS
  | fs, [] => some fs
  | fs, q :: rest =>
    match lookupFS fs q with
    | some .dir => mkdirPrefixes fs rest
    | some (.file _) => none
    | none => mkdirPrefixes (fs ++ [(q, .dir)]) rest

/-- `os.makedirs`: create the directory and all missing intermediate
directories; raises if the path already exists or an ancestor is a file. -/
def makedirs (fs : FS) (p : Path) : Option FS :=
  if path_exists fs p then none
  else mkdirPrefixes fs (pathPrefixes p)

/-- `open(p, "w")` followed by writing `c`: any previous entry at `p` is
replaced by a file with content `c`. -/
def writeFile (fs : FS) (p : Path) (c : String) : FS :=
  fs.filter (fun e => decide (e.1 ≠ p)) ++ [(p, .file c)]

/-- `shutil.rmtree`: remove the directory and everything below it;
raises if the path is not a directory. -/
def rmtree (fs : FS) (p : Path) : Option FS :=
  if isdir fs p then some (fs.filter (fun e => !(p.isPrefixOf e.1))) else none

/-- Filesystem events of one run; `print` diagnostics are recorded alongside
the mutations so that "zero additional mutations" is a statement about runs. -/
inductive Event where
  | folderCreated (p : Path)
  | infoFileCreated (p : Path)
  | folderAlreadyExists (p : Path)
  | deletedDirectory (p : Path)
  | directoryNotEmpty (name : String)
deriving DecidableEq

/-- Which events are filesystem mutations (creations, writes, deletions). -/
def isMutation : Event → Bool
  | .folderCreated _ => true
  | .infoFileCreated _ => true
  | .deletedDirectory _ => true
  | _ => false

/-- The contents written to `course_info.txt`: one `key: value` line per
field of the record, in insertion order. -/
def renderInfo (course_info : Course) : String :=
  String.join (course_info.map (fun kv => kv.1 ++ ": " ++ kv.2 ++ "\n"))

/-- `create_folder_with_info` from ClassSetup.py. -/
def create_folder_with_info (fs : FS) (path : Path) (course_info : Course) :
    Option (FS × List Event) :=
  if path_exists fs path then
    some (fs, [.folderAlreadyExists path])
  else
    match makedirs fs path with
    | none => none
    | some fs₁ =>
      some (writeFile fs₁ (path ++ ["course_info.txt"]) (renderInfo course_info),
            [.folderCreated path, .infoFileCreated (path ++ ["course_info.txt"])])

/-- `get_existing_directories` from ClassSetup.py. -/
def get_existing_directories (fs : FS) (path : Path) : Option (List String) :=
  if path_exists fs path then
    if isdir fs path then
      some ((listdir fs path).filter (fun d => isdir fs (path ++ [d])))
    else none
  else some []

/-- `is_directory_empty` from ClassSetup.py. -/
def is_directory_empty (fs : FS) (dir_path : Path) : Bool :=
  if path_exists fs dir_path && isdir fs dir_path then
    (listdir fs dir_path).isEmpty
  else true

/-- `course["coursename"]`. -/
def coursename? (course : Course) : Option String :=
  course.lookup "coursename"

/-- `[course["coursename"] for course in courses]`; `none` models the
KeyError raised when a record has no `coursename` field. -/
def coursenames? : List Course → Option (List String)
  | [] => some []
  | c :: rest =>
    match coursename? c, coursenames? rest with
    | some n, some ns => some (n :: ns)
    | _, _ => none

/-- The first loop of `synchronize_directories`: create directories and info
files for new courses. -/
def createLoop (semester_path : Path) (existing_dirs : List String) :
    FS → List Course → Option (FS × List Event)
  | fs, [] => some (fs, [])
  | fs, course :: rest =>
    match coursename? course with
    | none => none
    | some course_name =>
      if course_name ∈ existing_dirs then
        createLoop semester_path existing_dirs fs rest
      else
        match create_folder_with_info fs (semester_path ++ [course_name]) course with
        | none => none
        | some (fs₁, ev) =>
          match createLoop semester_path existing_dirs fs₁ rest with
          | none => none
          | some (fs₂, ev₂) => some (fs₂, ev ++ ev₂)

/-- The second loop of `synchronize_directories`: delete directories for
courses no longer in the schedule, skipping non-empty ones. -/
def deleteLoop (semester_path : Path) (course_names : List String) :
    FS → List String → Option (FS × List Event)
  | fs, [] => some (fs, [])
  | fs, existing_dir :: rest =>
    if existing_dir ∈ course_names then
      deleteLoop semester_path course_names fs rest
    else
      let dir_to_delete := semester_path ++ [existing_dir]
      if is_directory_empty fs dir_to_delete then
        match rmtree fs dir_to_delete with
        | none => none
        | some fs₁ =>
          match deleteLoop semester_path course_names fs₁ rest with
          | none => none
          | some (fs₂, ev₂) => some (fs₂, .deletedDirectory dir_to_delete :: ev₂)
      else
        match deleteLoop semester_path course_names fs rest with
        | none => none
        | some (fs₂, ev₂) => some (fs₂, .directoryNotEmpty existing_dir :: ev₂)

/-- `synchronize_directories` from ClassSetup.py. -/
def synchronize_directories (fs : FS) (onedrive_path : Path)
    (semester_name : String) (courses : List Course) : Option (FS × List Event) :=
  match get_existing_directories fs (onedrive_path ++ [semester_name]) with
  | none => none
  | some existing_dirs =>
    match coursenames? courses with
    | none => none
    | some course_names =>
      match createLoop (onedrive_path ++ [semester_name]) existing_dirs fs courses with
      | none => none
      | some (fs₁, ev₁) =>
        match deleteLoop (onedrive_path ++ [semester_name]) course_names fs₁ existing_dirs with
        | none => none
        | some (fs₂, ev₂) => some (fs₂, ev₁ ++ ev₂)

/-- `determine_semester` from ClassSetup.py, as a pure function of the
current month and year. -/
def determine_semester (month year : Nat) : String :=
  if 11 ≤ month ∧ month ≤ 12 then "Spring " ++ toString (year + 1)
  else if 6 ≤ month ∧ month ≤ 10 then "Fall " ++ toString year
  else "Summer " ++ toString year

/-! ### Selection prompts (ClassSetup.select_json_file, ClassArchive.select_directory) -/

/-- A keypress delivered by `stdscr.getch()`. -/
inductive Key where
  | enter : Key
  | up : Key
  | down : Key
  | other (code : Nat) : Key

/-- Possible outcomes of a prompt run on a finite key sequence: a value is
returned, an IndexError is raised, or the loop is still awaiting input
(the prompt blocks forever on an empty key stream). -/
inductive SelOutcome (α : Type) where
  | chosen (a : α) : SelOutcome α
  | crashed : SelOutcome α
  | blocked : SelOutcome α
deriving DecidableEq

/-- One entry of the GitHub contents listing, filtered to `.json` files. -/
structure GitFile where
  name : String
  download_url : String
deriving DecidableEq

/-- `select_directory` from ClassArchive.py: cursor loop over the directory
list; ENTER returns `directories[cursor_position]`. -/
def select_directory (directories : List String) : Nat → List Key → SelOutcome String
  | _, [] => .blocked
  | cursor_position, key :: keys =>
    match key with
    | .enter =>
      match directories.get? cursor_position with
      | some d => .chosen d
      | none => .crashed
    | .up =>
      select_directory directories
        (if cursor_position > 0 then cursor_position - 1 else cursor_position) keys
    | .down =>
      select_directory directories
        (if cursor_position < directories.length - 1 then cursor_position + 1
         else cursor_position) keys
    | .other _ => select_directory directories cursor_position keys

/-- `select_json_file` from ClassSetup.py: same cursor loop over the file
list; ENTER returns `files[cursor_position]["download_url"]`. -/
def select_json_file (files : List GitFile) : Nat → List Key → SelOutcome String
  | _, [] => .blocked
  | cursor_position, key :: keys =>
    match key with
    | .enter =>
      match files.get? cursor_position with
      | some file => .chosen file.download_url
      | none => .crashed
    | .up =>
      select_json_file files
        (if cursor_position > 0 then cursor_position - 1 else cursor_position) keys
    | .down =>
      select_json_file files
        (if cursor_position < files.length - 1 then cursor_position + 1
         else cursor_position) keys
    | .other _ => select_json_file files cursor_position keys

/-! ### archive_directory (ClassArchive.py) -/

/-- The files collected by `os.walk(dir_path)` together with the archive
names produced by `os.path.relpath(file, os.path.join(dir_path, ".."))`:
every file strictly below `dir_path`, stored at its path relative to the
parent of `dir_path`. -/
def archive_entries (fs : FS) (dir_path : Path) : List (Path × String) :=
  fs.filterMap (fun e =>
    match e.2 with
    | .file c =>
      if dir_path.isPrefixOf e.1 ∧ dir_path ≠ e.1 then
        some (e.1.drop (dir_path.length - 1), c)
      else none
    | .dir => none)

/-- `archive_directory` from ClassArchive.py, as the produced artifact:
the zip file's path `archive_path/<basename>.zip` and its entries. -/
def archive_directory (fs : FS) (dir_path archive_path : Path) :
    Path × List (Path × String) :=
  (archive_path ++ [dir_path.getLastD "" ++ ".zip"], archive_entries fs dir_path)

/-! ### Basic lemmas about the filesystem model -/

theorem lookupFS_cons (e : Path × Entry) (rest : FS) (p : Path) :
    lookupFS (e :: rest) p = if e.1 = p then some e.2 else lookupFS rest p := rfl

theorem lookupFS_append_of_some {l₁ : FS} {p : Path} {k : Entry} (l₂ : FS)
    (h : lookupFS l₁ p = some k) : lookupFS (l₁ ++ l₂) p = some k := by
  induction l₁ with
  | nil => simp [lookupFS] at h
  | cons e rest ih =>
    rw [lookupFS_cons] at h
    rw [List.cons_append, lookupFS_cons]
    by_cases he : e.1 = p
    · rwa [if_pos he] at h ⊢
    · rw [if_neg he] at h ⊢
      exact ih h

theorem lookupFS_append_of_none {l₁ : FS} {p : Path} (l₂ : FS)
    (h : lookupFS l₁ p = none) : lookupFS (l₁ ++ l₂) p = lookupFS l₂ p := by
  induction l₁ with
  | nil => simp
  | cons e rest ih =>
    rw [lookupFS_cons] at h
    rw [List.cons_append, lookupFS_cons]
    by_cases he : e.1 = p
    · rw [if_pos he] at h
      exact absurd h (by simp)
    · rw [if_neg he] at h
      rw [if_neg he]
      exact ih h

theorem lookupFS_eq_none_iff {fs : FS} {p : Path} :
    lookupFS fs p = none ↔ ∀ e ∈ fs, e.1 ≠ p := by
  induction fs with
  | nil => simp [lookupFS]
  | cons e rest ih =>
    rw [lookupFS_cons]
    by_cases he : e.1 = p
    · rw [if_pos he]
      simp only [List.mem_cons]
      constructor
      · intro h
        exact absurd h (by simp)
      · intro h
        exact absurd he (h e (Or.inl rfl))
    · rw [if_neg he, ih]
      simp only [List.mem_cons]
      constructor
      · rintro h e' (rfl | he')
        · exact he
        · exact h e' he'
      · intro h e' he'
        exact h e' (Or.inr he')

theorem lookupFS_mem {fs : FS} {p : Path} {k : Entry}
    (h : lookupFS fs p = some k) : (p, k) ∈ fs := by
  induction fs with
  | nil => simp [lookupFS] at h
  | cons e rest ih =>
    rw [lookupFS_cons] at h
    by_cases he : e.1 = p
    · rw [if_pos he] at h
      have hk : e.2 = k := Option.some.inj h
      rw [List.mem_cons]
      left
      rw [← he, ← hk]
    · rw [if_neg he] at h
      exact List.mem_cons_of_mem _ (ih h)

theorem lookupFS_filter {fs : FS} {p : Path} (pred : Path → Bool) :
    lookupFS (fs.filter (fun e => pred e.1)) p =
      if pred p then lookupFS fs p else none := by
  induction fs with
  | nil => simp [lookupFS]
  | cons e rest ih =>
    rw [List.filter_cons]
    by_cases he : e.1 = p
    · by_cases hp : pred p
      · have hpe : pred e.1 = true := by rw [he]; exact hp
        rw [if_pos hpe, lookupFS_cons, if_pos he, if_pos hp, lookupFS_cons, if_pos he]
      · have hpe : ¬ pred e.1 = true := by rw [he]; exact hp
        rw [if_neg hpe, ih, if_neg hp, if_neg hp]
    · by_cases hpe : pred e.1 = true
      · rw [if_pos hpe, lookupFS_cons, if_neg he, ih]
        by_cases hp : pred p
        · rw [if_pos hp, if_pos hp, lookupFS_cons, if_neg he]
        · rw [if_neg hp, if_neg hp]
      · rw [if_neg hpe, ih]
        by_cases hp : pred p
        · rw [if_pos hp, if_pos hp, lookupFS_cons, if_neg he]
        · rw [if_neg hp, if_neg hp]

theorem path_exists_iff {fs : FS} {p : Path} :
    path_exists fs p = true ↔ ∃ k, lookupFS fs p = some k := by
  simp [path_exists, Option.isSome_iff_exists]

theorem path_exists_eq_false_iff {fs : FS} {p : Path} :
    path_exists fs p = false ↔ lookupFS fs p = none := by
  cases h : lookupFS fs p <;> simp [path_exists, h]

theorem isdir_iff {fs : FS} {p : Path} :
    isdir fs p = true ↔ lookupFS fs p = some .dir := by
  unfold isdir
  cases h : lookupFS fs p with
  | none => simp
  | some k => cases k <;> simp

theorem exists_of_isdir {fs : FS} {p : Path} (h : isdir fs p = true) :
    path_exists fs p = true :=
  path_exists_iff.mpr ⟨_, isdir_iff.mp h⟩

/-! ### childName and listdir -/

theorem childName_eq_some {p q : Path} {n : String} :
    childName p q = some n ↔ q = p ++ [n] := by
  constructor
  · intro h
    unfold childName at h
    rcases hd : q.drop p.length with _ | ⟨m, _ | ⟨m₂, tl⟩⟩ <;> rw [hd] at h
    · simp at h
    · have h' : (if q.take p.length = p then some m else none) = some n := h
      by_cases ht : q.take p.length = p
      · rw [if_pos ht] at h'
        have hm : m = n := Option.some.inj h'
        subst hm
        conv_lhs => rw [← List.take_append_drop p.length q]
        rw [ht, hd]
      · rw [if_neg ht] at h'
        exact absurd h' (by simp)
    · simp at h
  · intro h
    subst h
    unfold childName
    rw [List.drop_left, List.take_left]
    simp

theorem childName_append (p : Path) (n : String) : childName p (p ++ [n]) = some n :=
  childName_eq_some.mpr rfl

theorem listdir_append (l₁ l₂ : FS) (p : Path) :
    listdir (l₁ ++ l₂) p = listdir l₁ p ++ listdir l₂ p := by
  simp [listdir, List.filterMap_append]

theorem mem_listdir {fs : FS} {p : Path} {n : String} :
    n ∈ listdir fs p ↔ ∃ k, (p ++ [n], k) ∈ fs := by
  unfold listdir
  rw [List.mem_filterMap]
  constructor
  · rintro ⟨e, he, hc⟩
    exact ⟨e.2, by rwa [← childName_eq_some.mp hc]⟩
  · rintro ⟨k, hk⟩
    exact ⟨(p ++ [n], k), hk, childName_append p n⟩

theorem listdir_filter_frame {fs : FS} {p : Path} (pred : Path → Bool)
    (h : ∀ n : String, pred (p ++ [n]) = true) :
    listdir (fs.filter (fun e => pred e.1)) p = listdir fs p := by
  induction fs with
  | nil => simp [listdir]
  | cons e rest ih =>
    by_cases hp : pred e.1
    · simp only [listdir, List.filter_cons, hp, if_pos rfl, List.filterMap_cons]
      cases hc : childName p e.1 with
      | none => simpa [listdir, List.filterMap_cons, hc] using ih
      | some m => simpa [listdir, List.filterMap_cons, hc] using ih
    · have hc : childName p e.1 = none := by
        cases hc : childName p e.1 with
        | none => rfl
        | some m =>
          rw [childName_eq_some.mp hc] at hp
          exact absurd (h m) hp
      simp only [listdir, List.filter_cons, hp]
      simpa [listdir, List.filterMap_cons, hc] using ih

theorem listdir_eq_nil_of_no_children {fs : FS} {p : Path}
    (h : ∀ e ∈ fs, childName p e.1 = none) : listdir fs p = [] :=
  List.filterMap_eq_nil_iff.mpr h

/-! ### Prefix helpers -/

theorem prefix_snoc_length {sp : Path} {a : String} {q : Path}
    (h : (sp ++ [a]) <+: q) : sp.length + 1 ≤ q.length := by
  have := h.length_le
  simpa using this

theorem prefix_snoc_eq {sp : Path} {a b : String} {q : Path}
    (ha : (sp ++ [a]) <+: q) (hb : (sp ++ [b]) <+: q) : a = b := by
  have h₁ : sp ++ [a] = q.take (sp ++ [a]).length := List.prefix_iff_eq_take.mp ha
  have h₂ : sp ++ [b] = q.take (sp ++ [b]).length := List.prefix_iff_eq_take.mp hb
  have hlen : (sp ++ [a]).length = (sp ++ [b]).length := by simp
  rw [hlen] at h₁
  have : sp ++ [a] = sp ++ [b] := h₁.trans h₂.symm
  simpa using this

theorem prefix_snoc_snoc {sp : Path} {a b : String}
    (h : (sp ++ [a]) <+: (sp ++ [b])) : a = b :=
  prefix_snoc_eq h (List.prefix_refl _)

/-! ### Path prefixes and well-formedness -/

theorem mem_pathPrefixes {p q : Path} :
    q ∈ pathPrefixes p ↔ ∃ i, i < p.length ∧ q = p.take (i + 1) := by
  simp [pathPrefixes, List.mem_map, List.mem_range, eq_comm]

theorem pathPrefixes_spec {p q : Path} (h : q ∈ pathPrefixes p) :
    q ≠ [] ∧ q <+: p := by
  obtain ⟨i, hi, rfl⟩ := mem_pathPrefixes.mp h
  refine ⟨?_, List.take_prefix _ _⟩
  have : (p.take (i + 1)).length = i + 1 := by
    rw [List.length_take]
    omega
  intro hnil
  rw [hnil] at this
  simp at this

theorem prefix_mem_pathPrefixes {q p : Path} (hne : q ≠ []) (hpfx : q <+: p) :
    q ∈ pathPrefixes p := by
  refine mem_pathPrefixes.mpr ⟨q.length - 1, ?_, ?_⟩
  · have h₁ := hpfx.length_le
    have h₂ : 0 < q.length := List.length_pos.mpr hne
    omega
  · have h₂ : 0 < q.length := List.length_pos.mpr hne
    have : q.length - 1 + 1 = q.length := by omega
    rw [this]
    exact (List.prefix_iff_eq_take.mp hpfx)

theorem mem_properPrefixes {p q : Path} :
    q ∈ properPrefixes p ↔ ∃ i, i < p.length - 1 ∧ q = p.take (i + 1) := by
  simp [properPrefixes, List.mem_map, List.mem_range, eq_comm]

theorem prefix_mem_properPrefixes {q p : Path} (hne : q ≠ []) (hpfx : q <+: p)
    (hlt : q.length < p.length) : q ∈ properPrefixes p := by
  refine mem_properPrefixes.mpr ⟨q.length - 1, ?_, ?_⟩
  · have h₂ : 0 < q.length := List.length_pos.mpr hne
    omega
  · have h₂ : 0 < q.length := List.length_pos.mpr hne
    have : q.length - 1 + 1 = q.length := by omega
    rw [this]
    exact (List.prefix_iff_eq_take.mp hpfx)

theorem wf_ancestor {fs : FS} {p q : Path} {k : Entry} (hwf : wf fs = true)
    (hmem : (p, k) ∈ fs) (hne : q ≠ []) (hpfx : q <+: p)
    (hlt : q.length < p.length) : isdir fs q = true := by
  have h := List.all_eq_true.mp hwf (p, k) hmem
  exact List.all_eq_true.mp h q (prefix_mem_properPrefixes hne hpfx hlt)

theorem wf_parent_isdir {fs : FS} {p : Path} {x : String} (hwf : wf fs = true)
    (hne : p ≠ []) (hx : path_exists fs (p ++ [x]) = true) :
    isdir fs p = true := by
  obtain ⟨k, hk⟩ := path_exists_iff.mp hx
  exact wf_ancestor hwf (lookupFS_mem hk) hne (List.prefix_append p [x]) (by simp)

theorem wf_no_children_of_not_exists {fs : FS} {p : Path} (hwf : wf fs = true)
    (hne : p ≠ []) (hnex : path_exists fs p = false) : listdir fs p = [] := by
  by_contra h
  obtain ⟨n, hn⟩ := List.exists_mem_of_ne_nil _ h
  obtain ⟨k, hk⟩ := mem_listdir.mp hn
  have : isdir fs p = true :=
    wf_ancestor hwf hk hne (List.prefix_append p [n]) (by simp)
  rw [exists_of_isdir this] at hnex
  exact absurd hnex (by simp)

/-! ### mkdirPrefixes and makedirs -/

theorem lookupFS_append_eq_none {l₁ l₂ : FS} {p : Path}
    (h : lookupFS (l₁ ++ l₂) p = none) : lookupFS l₁ p = none := by
  rw [lookupFS_eq_none_iff] at h ⊢
  intro e he
  exact h e (List.mem_append_left _ he)

theorem mkdirPrefixes_shape : ∀ (l : List Path) (fs fs' : FS),
    mkdirPrefixes fs l = some fs' →
    ∃ add : FS, fs' = fs ++ add ∧
      ∀ e ∈ add, e.2 = Entry.dir ∧ e.1 ∈ l ∧ lookupFS fs e.1 = none := by
  intro l
  induction l with
  | nil =>
    intro fs fs' h
    have h' : fs = fs' := Option.some.inj h
    exact ⟨[], by simp [h'], by simp⟩
  | cons q rest ih =>
    intro fs fs' h
    cases hq : lookupFS fs q with
    | some k =>
      cases k with
      | dir =>
        have h' : mkdirPrefixes fs rest = some fs' := by
          unfold mkdirPrefixes at h
          rwa [hq] at h
        obtain ⟨add, rfl, hadd⟩ := ih fs fs' h'
        exact ⟨add, rfl, fun e he =>
          ⟨(hadd e he).1, List.mem_cons_of_mem _ (hadd e he).2.1, (hadd e he).2.2⟩⟩
      | file c =>
        exfalso
        unfold mkdirPrefixes at h
        rw [hq] at h
        exact absurd h (by simp)
    | none =>
      have h' : mkdirPrefixes (fs ++ [(q, .dir)]) rest = some fs' := by
        unfold mkdirPrefixes at h
        rwa [hq] at h
      obtain ⟨add, heq, hadd⟩ := ih _ fs' h'
      refine ⟨(q, .dir) :: add, ?_, ?_⟩
      · rw [heq, List.append_assoc]
        rfl
      · intro e he
        rcases List.mem_cons.mp he with rfl | he'
        · exact ⟨rfl, List.mem_cons_self _ _, hq⟩
        · refine ⟨(hadd e he').1, List.mem_cons_of_mem _ (hadd e he').2.1, ?_⟩
          exact lookupFS_append_eq_none (hadd e he').2.2

theorem mkdirPrefixes_lookup_mem : ∀ (l : List Path) (fs fs' : FS),
    mkdirPrefixes fs l = some fs' → ∀ q ∈ l, lookupFS fs' q = some .dir := by
  intro l
  induction l with
  | nil => intro fs fs' h q hq; simp at hq
  | cons q0 rest ih =>
    intro fs fs' h q hq
    cases hq0 : lookupFS fs q0 with
    | some k =>
      cases k with
      | dir =>
        have h' : mkdirPrefixes fs rest = some fs' := by
          unfold mkdirPrefixes at h
          rwa [hq0] at h
        rcases List.mem_cons.mp hq with rfl | hq
        · obtain ⟨add, rfl, _⟩ := mkdirPrefixes_shape rest fs fs' h'
          exact lookupFS_append_of_some _ hq0
        · exact ih fs fs' h' q hq
      | file c =>
        exfalso
        unfold mkdirPrefixes at h
        rw [hq0] at h
        exact absurd h (by simp)
    | none =>
      have h' : mkdirPrefixes (fs ++ [(q0, .dir)]) rest = some fs' := by
        unfold mkdirPrefixes at h
        rwa [hq0] at h
      rcases List.mem_cons.mp hq with rfl | hq
      · obtain ⟨add, rfl, _⟩ := mkdirPrefixes_shape rest _ fs' h'
        refine lookupFS_append_of_some _ ?_
        rw [lookupFS_append_of_none _ hq0]
        simp [lookupFS]
      · exact ih _ fs' h' q hq

theorem mkdirPrefixes_frame {l : List Path} {fs fs' : FS}
    (h : mkdirPrefixes fs l = some fs') {q : Path} (hq : q ∉ l) :
    lookupFS fs' q = lookupFS fs q := by
  obtain ⟨add, rfl, hadd⟩ := mkdirPrefixes_shape l fs fs' h
  cases hfs : lookupFS fs q with
  | some k => exact lookupFS_append_of_some _ hfs
  | none =>
    rw [lookupFS_append_of_none _ hfs]
    rw [lookupFS_eq_none_iff]
    intro e he
    intro hcon
    exact hq (hcon ▸ (hadd e he).2.1)

theorem mkdirPrefixes_success : ∀ (l : List Path) (fs : FS),
    (∀ q ∈ l, lookupFS fs q = none ∨ lookupFS fs q = some .dir) →
    ∃ fs', mkdirPrefixes fs l = some fs' := by
  intro l
  induction l with
  | nil => intro fs _; exact ⟨fs, rfl⟩
  | cons q0 rest ih =>
    intro fs h
    rcases h q0 (List.mem_cons_self _ _) with hq0 | hq0
    · have hrest : ∀ q ∈ rest, lookupFS (fs ++ [(q0, .dir)]) q = none ∨
          lookupFS (fs ++ [(q0, .dir)]) q = some .dir := by
        intro q hq
        rcases h q (List.mem_cons_of_mem _ hq) with hn | hd
        · rw [lookupFS_append_of_none _ hn]
          by_cases he : q0 = q
          · right; simp [lookupFS, he]
          · left; simp [lookupFS, he]
        · right; exact lookupFS_append_of_some _ hd
      obtain ⟨fs', hfs'⟩ := ih _ hrest
      refine ⟨fs', ?_⟩
      show (match lookupFS fs q0 with
        | some .dir => mkdirPrefixes fs rest
        | some (.file _) => none
        | none => mkdirPrefixes (fs ++ [(q0, .dir)]) rest) = some fs'
      rw [hq0]
      exact hfs'
    · obtain ⟨fs', hfs'⟩ := ih fs (fun q hq => h q (List.mem_cons_of_mem _ hq))
      refine ⟨fs', ?_⟩
      show (match lookupFS fs q0 with
        | some .dir => mkdirPrefixes fs rest
        | some (.file _) => none
        | none => mkdirPrefixes (fs ++ [(q0, .dir)]) rest) = some fs'
      rw [hq0]
      exact hfs'

theorem makedirs_eq {fs fs' : FS} {p : Path} (h : makedirs fs p = some fs') :
    path_exists fs p = false ∧ mkdirPrefixes fs (pathPrefixes p) = some fs' := by
  unfold makedirs at h
  by_cases hex : path_exists fs p = true
  · rw [if_pos hex] at h
    exact absurd h (by simp)
  · rw [if_neg hex] at h
    exact ⟨by simpa using hex, h⟩

theorem makedirs_shape {fs fs' : FS} {p : Path} (h : makedirs fs p = some fs') :
    ∃ add : FS, fs' = fs ++ add ∧
      ∀ e ∈ add, e.2 = Entry.dir ∧ (e.1 ≠ [] ∧ e.1 <+: p) ∧ lookupFS fs e.1 = none := by
  obtain ⟨add, rfl, hadd⟩ := mkdirPrefixes_shape _ _ _ (makedirs_eq h).2
  exact ⟨add, rfl, fun e he =>
    ⟨(hadd e he).1, pathPrefixes_spec (hadd e he).2.1, (hadd e he).2.2⟩⟩

theorem makedirs_lookup_prefix {fs fs' : FS} {p q : Path}
    (h : makedirs fs p = some fs') (hne : q ≠ []) (hpfx : q <+: p) :
    lookupFS fs' q = some .dir :=
  mkdirPrefixes_lookup_mem _ _ _ (makedirs_eq h).2 q (prefix_mem_pathPrefixes hne hpfx)

theorem makedirs_frame {fs fs' : FS} {p q : Path}
    (h : makedirs fs p = some fs') (hq : ¬(q ≠ [] ∧ q <+: p)) :
    lookupFS fs' q = lookupFS fs q := by
  refine mkdirPrefixes_frame (makedirs_eq h).2 ?_
  intro hmem
  exact hq (pathPrefixes_spec hmem)

theorem makedirs_preserves_some {fs fs' : FS} {p q : Path} {k : Entry}
    (h : makedirs fs p = some fs') (hk : lookupFS fs q = some k) :
    lookupFS fs' q = some k := by
  obtain ⟨add, rfl, _⟩ := makedirs_shape h
  exact lookupFS_append_of_some _ hk

theorem makedirs_listdir_frame {fs fs' : FS} {p r : Path}
    (h : makedirs fs p = some fs') (hr : ∀ x : String, ¬ ((r ++ [x]) <+: p)) :
    listdir fs' r = listdir fs r := by
  obtain ⟨add, rfl, hadd⟩ := makedirs_shape h
  rw [listdir_append]
  have : listdir add r = [] := by
    refine listdir_eq_nil_of_no_children ?_
    intro e he
    cases hc : childName r e.1 with
    | none => rfl
    | some x =>
      exfalso
      have := childName_eq_some.mp hc
      exact hr x (this ▸ (hadd e he).2.1.2)
  rw [this, List.append_nil]

/-! ### writeFile -/

theorem lookupFS_writeFile_self (fs : FS) (p : Path) (c : String) :
    lookupFS (writeFile fs p c) p = some (.file c) := by
  unfold writeFile
  have hnone : lookupFS (fs.filter (fun e => decide (e.1 ≠ p))) p = none := by
    rw [lookupFS_filter (fun q => decide (q ≠ p))]
    simp
  rw [lookupFS_append_of_none _ hnone]
  simp [lookupFS]

theorem lookupFS_writeFile_other (fs : FS) (p : Path) (c : String) {q : Path}
    (h : q ≠ p) : lookupFS (writeFile fs p c) q = lookupFS fs q := by
  unfold writeFile
  have hfilter : lookupFS (fs.filter (fun e => decide (e.1 ≠ p))) q = lookupFS fs q := by
    rw [lookupFS_filter (fun q => decide (q ≠ p))]
    simp [h]
  cases hfs : lookupFS fs q with
  | some k =>
    rw [hfs] at hfilter
    exact lookupFS_append_of_some _ hfilter
  | none =>
    rw [hfs] at hfilter
    rw [lookupFS_append_of_none _ hfilter]
    simp [lookupFS, h, Ne.symm h]

theorem path_exists_writeFile_self (fs : FS) (p : Path) (c : String) :
    path_exists (writeFile fs p c) p = true :=
  path_exists_iff.mpr ⟨_, lookupFS_writeFile_self fs p c⟩

theorem listdir_writeFile (fs : FS) (p : Path) (c : String) {r : Path}
    (h : ∀ x : String, r ++ [x] ≠ p) :
    listdir (writeFile fs p c) r = listdir fs r := by
  unfold writeFile
  rw [listdir_append]
  have h₁ : listdir [(p, Entry.file c)] r = [] := by
    refine listdir_eq_nil_of_no_children ?_
    intro e he
    rcases List.mem_cons.mp he with rfl | he'
    · cases hc : childName r p with
      | none => rfl
      | some x => exact absurd (childName_eq_some.mp hc).symm (h x)
    · simp at he'
  have h₂ : listdir (fs.filter (fun e => decide (e.1 ≠ p))) r = listdir fs r := by
    refine listdir_filter_frame (fun q => decide (q ≠ p)) ?_
    intro n
    simp [h n]
  rw [h₁, h₂, List.append_nil]

/-! ### create_folder_with_info step lemmas -/

theorem create_eq_noop {fs : FS} {path : Path} (course : Course)
    (h : path_exists fs path = true) :
    create_folder_with_info fs path course = some (fs, [.folderAlreadyExists path]) := by
  unfold create_folder_with_info
  rw [if_pos h]

theorem create_inv {fs : FS} {path : Path} {course : Course} {fs' : FS} {ev : List Event}
    (h : create_folder_with_info fs path course = some (fs', ev)) :
    (path_exists fs path = true ∧ fs' = fs ∧ ev = [.folderAlreadyExists path]) ∨
    (path_exists fs path = false ∧ ∃ fs₁, makedirs fs path = some fs₁ ∧
       fs' = writeFile fs₁ (path ++ ["course_info.txt"]) (renderInfo course) ∧
       ev = [.folderCreated path, .infoFileCreated (path ++ ["course_info.txt"])]) := by
  unfold create_folder_with_info at h
  by_cases hex : path_exists fs path = true
  · rw [if_pos hex] at h
    have h' := Option.some.inj h
    exact Or.inl ⟨hex, congrArg Prod.fst h'.symm, congrArg Prod.snd h'.symm⟩
  · rw [if_neg hex] at h
    cases hm : makedirs fs path with
    | none =>
      rw [hm] at h
      exact absurd h (by simp)
    | some fs₁ =>
      rw [hm] at h
      have h' : (writeFile fs₁ (path ++ ["course_info.txt"]) (renderInfo course),
          ([.folderCreated path, .infoFileCreated (path ++ ["course_info.txt"])] :
            List Event)) = (fs', ev) := Option.some.inj h
      refine Or.inr ⟨by simpa using hex, fs₁, rfl, ?_, ?_⟩
      · exact (congrArg Prod.fst h').symm
      · exact (congrArg Prod.snd h').symm

theorem infoPath_length (path : Path) :
    (path ++ ["course_info.txt"]).length = path.length + 1 := by simp

theorem create_shallow {fs : FS} {path : Path} {course : Course} {fs' : FS}
    {ev : List Event} (h : create_folder_with_info fs path course = some (fs', ev))
    {q : Path} {k : Entry} (hq : q.length ≤ path.length)
    (hk : lookupFS fs q = some k) : lookupFS fs' q = some k := by
  rcases create_inv h with ⟨_, rfl, _⟩ | ⟨_, fs₁, hm, rfl, _⟩
  · exact hk
  · have hne : q ≠ path ++ ["course_info.txt"] := by
      intro hcon
      rw [hcon] at hq
      rw [infoPath_length] at hq
      omega
    rw [lookupFS_writeFile_other _ _ _ hne]
    exact makedirs_preserves_some hm hk

theorem create_exists_mono {fs : FS} {path : Path} {course : Course} {fs' : FS}
    {ev : List Event} (h : create_folder_with_info fs path course = some (fs', ev))
    {q : Path} (hq : path_exists fs q = true) : path_exists fs' q = true := by
  rcases create_inv h with ⟨_, rfl, _⟩ | ⟨_, fs₁, hm, rfl, _⟩
  · exact hq
  · by_cases hne : q = path ++ ["course_info.txt"]
    · rw [hne]
      exact path_exists_writeFile_self _ _ _
    · obtain ⟨k, hk⟩ := path_exists_iff.mp hq
      refine path_exists_iff.mpr ⟨k, ?_⟩
      rw [lookupFS_writeFile_other _ _ _ hne]
      exact makedirs_preserves_some hm hk

theorem create_frame {fs : FS} {path : Path} {course : Course} {fs' : FS}
    {ev : List Event} (h : create_folder_with_info fs path course = some (fs', ev))
    {q : Path} (h₁ : ¬(q ≠ [] ∧ q <+: path)) (h₂ : q ≠ path ++ ["course_info.txt"]) :
    lookupFS fs' q = lookupFS fs q := by
  rcases create_inv h with ⟨_, rfl, _⟩ | ⟨_, fs₁, hm, rfl, _⟩
  · rfl
  · rw [lookupFS_writeFile_other _ _ _ h₂]
    exact makedirs_frame hm h₁

theorem create_listdir_frame {fs : FS} {path : Path} {course : Course} {fs' : FS}
    {ev : List Event} (h : create_folder_with_info fs path course = some (fs', ev))
    {r : Path} (h₁ : ∀ x : String, ¬((r ++ [x]) <+: path))
    (h₂ : ∀ x : String, r ++ [x] ≠ path ++ ["course_info.txt"]) :
    listdir fs' r = listdir fs r := by
  rcases create_inv h with ⟨_, rfl, _⟩ | ⟨_, fs₁, hm, rfl, _⟩
  · rfl
  · rw [listdir_writeFile _ _ _ h₂]
    exact makedirs_listdir_frame hm h₁

theorem create_dir_or_same {fs : FS} {path : Path} {course : Course} {fs' : FS}
    {ev : List Event} (h : create_folder_with_info fs path course = some (fs', ev))
    (q : Path) (hq : q.length ≤ path.length) :
    lookupFS fs' q = lookupFS fs q ∨ lookupFS fs' q = some .dir := by
  rcases create_inv h with ⟨_, rfl, _⟩ | ⟨_, fs₁, hm, rfl, _⟩
  · exact Or.inl rfl
  · have hne : q ≠ path ++ ["course_info.txt"] := by
      intro hcon
      rw [hcon, infoPath_length] at hq
      omega
    rw [lookupFS_writeFile_other _ _ _ hne]
    obtain ⟨add, rfl, hadd⟩ := makedirs_shape hm
    cases hfs : lookupFS fs q with
    | some k => exact Or.inl (lookupFS_append_of_some _ hfs)
    | none =>
      rw [lookupFS_append_of_none _ hfs]
      cases ha : lookupFS add q with
      | none => exact Or.inl rfl
      | some k =>
        right
        have hk : k = Entry.dir := (hadd _ (lookupFS_mem ha)).1
        rw [hk]

theorem create_creates {fs : FS} {path : Path} {course : Course} {fs' : FS}
    {ev : List Event} (h : create_folder_with_info fs path course = some (fs', ev))
    (hne : path ≠ []) : path_exists fs' path = true := by
  rcases create_inv h with ⟨hex, rfl, _⟩ | ⟨_, fs₁, hm, rfl, _⟩
  · exact hex
  · have hd : lookupFS fs₁ path = some .dir :=
      makedirs_lookup_prefix hm hne (List.prefix_refl _)
    have hni : path ≠ path ++ ["course_info.txt"] := by
      intro hcon
      have := congrArg List.length hcon
      rw [infoPath_length] at this
      omega
    refine path_exists_iff.mpr ⟨.dir, ?_⟩
    rw [lookupFS_writeFile_other _ _ _ hni]
    exact hd

/-! ### createLoop lemmas -/

theorem createLoop_cons (sp : Path) (ex : List String) (fs : FS) (course : Course)
    (rest : List Course) :
    createLoop sp ex fs (course :: rest) =
      match coursename? course with
      | none => none
      | some course_name =>
        if course_name ∈ ex then createLoop sp ex fs rest
        else
          match create_folder_with_info fs (sp ++ [course_name]) course with
          | none => none
          | some (fs₁, ev) =>
            match createLoop sp ex fs₁ rest with
            | none => none
            | some (fs₂, ev₂) => some (fs₂, ev ++ ev₂) := rfl

theorem createLoop_cons_inv {sp : Path} {ex : List String} {fs : FS} {course : Course}
    {rest : List Course} {fs₂ : FS} {ev : List Event}
    (h : createLoop sp ex fs (course :: rest) = some (fs₂, ev)) :
    ∃ n, coursename? course = some n ∧
      ((n ∈ ex ∧ createLoop sp ex fs rest = some (fs₂, ev)) ∨
       (n ∉ ex ∧ ∃ fs₁ ev₁ ev₂,
          create_folder_with_info fs (sp ++ [n]) course = some (fs₁, ev₁) ∧
          createLoop sp ex fs₁ rest = some (fs₂, ev₂) ∧ ev = ev₁ ++ ev₂)) := by
  rw [createLoop_cons] at h
  cases hn : coursename? course with
  | none =>
    rw [hn] at h
    exact absurd h (by simp)
  | some n =>
    rw [hn] at h
    refine ⟨n, rfl, ?_⟩
    by_cases hmem : n ∈ ex
    · simp only [if_pos hmem] at h
      exact Or.inl ⟨hmem, h⟩
    · simp only [if_neg hmem] at h
      cases hc : create_folder_with_info fs (sp ++ [n]) course with
      | none =>
        rw [hc] at h
        exact absurd h (by simp)
      | some pr =>
        obtain ⟨fs₁, ev₁⟩ := pr
        rw [hc] at h
        have h₂ : (match createLoop sp ex fs₁ rest with
            | none => none
            | some (fsr, evr) => some (fsr, ev₁ ++ evr)) = some (fs₂, ev) := h
        cases hcl : createLoop sp ex fs₁ rest with
        | none =>
          rw [hcl] at h₂
          exact absurd h₂ (by simp)
        | some pr₂ =>
          obtain ⟨fsr, evr⟩ := pr₂
          rw [hcl] at h₂
          have h' : ((fsr, ev₁ ++ evr) : FS × List Event) = (fs₂, ev) := Option.some.inj h₂
          have hfsr : fsr = fs₂ := congrArg Prod.fst h'
          have hevr : ev = ev₁ ++ evr := (congrArg Prod.snd h').symm
          refine Or.inr ⟨hmem, fs₁, ev₁, evr, rfl, ?_, hevr⟩
          rw [hcl, hfsr]

theorem createLoop_shallow {sp : Path} {ex : List String} :
    ∀ (courses : List Course) (fs fs₂ : FS) (ev : List Event),
    createLoop sp ex fs courses = some (fs₂, ev) →
    ∀ (q : Path) (k : Entry), q.length ≤ sp.length + 1 →
    lookupFS fs q = some k → lookupFS fs₂ q = some k := by
  intro courses
  induction courses with
  | nil =>
    intro fs fs₂ ev h q k hq hk
    have h' : ((fs, ([] : List Event))) = (fs₂, ev) := Option.some.inj h
    have hfs2 : fs = fs₂ := congrArg Prod.fst h'
    rw [← hfs2]
    exact hk
  | cons c rest ih =>
    intro fs fs₂ ev h q k hq hk
    obtain ⟨n, hn, hcase⟩ := createLoop_cons_inv h
    rcases hcase with ⟨hmem, hrest⟩ | ⟨hmem, fs₁, ev₁, ev₂, hc, hrest, rfl⟩
    · exact ih fs fs₂ ev hrest q k hq hk
    · refine ih fs₁ fs₂ ev₂ hrest q k hq ?_
      exact create_shallow hc (by simpa using hq) hk

theorem createLoop_exists_mono {sp : Path} {ex : List String} :
    ∀ (courses : List Course) (fs fs₂ : FS) (ev : List Event),
    createLoop sp ex fs courses = some (fs₂, ev) →
    ∀ q : Path, path_exists fs q = true → path_exists fs₂ q = true := by
  intro courses
  induction courses with
  | nil =>
    intro fs fs₂ ev h q hq
    have h' : ((fs, ([] : List Event))) = (fs₂, ev) := Option.some.inj h
    have hfs2 : fs = fs₂ := congrArg Prod.fst h'
    rw [← hfs2]
    exact hq
  | cons c rest ih =>
    intro fs fs₂ ev h q hq
    obtain ⟨n, hn, hcase⟩ := createLoop_cons_inv h
    rcases hcase with ⟨hmem, hrest⟩ | ⟨hmem, fs₁, ev₁, ev₂, hc, hrest, rfl⟩
    · exact ih fs fs₂ ev hrest q hq
    · exact ih fs₁ fs₂ ev₂ hrest q (create_exists_mono hc hq)

theorem createLoop_frame {sp : Path} {ex : List String} :
    ∀ (courses : List Course) (fs fs₂ : FS) (ev : List Event),
    createLoop sp ex fs courses = some (fs₂, ev) →
    ∀ q : Path,
    (∀ c ∈ courses, ∀ n, coursename? c = some n → n ∉ ex →
      ¬(q ≠ [] ∧ q <+: (sp ++ [n])) ∧ q ≠ (sp ++ [n]) ++ ["course_info.txt"]) →
    lookupFS fs₂ q = lookupFS fs q := by
  intro courses
  induction courses with
  | nil =>
    intro fs fs₂ ev h q _
    have h' : ((fs, ([] : List Event))) = (fs₂, ev) := Option.some.inj h
    have hfs2 : fs = fs₂ := congrArg Prod.fst h'
    rw [← hfs2]
  | cons c rest ih =>
    intro fs fs₂ ev h q hq
    obtain ⟨n, hn, hcase⟩ := createLoop_cons_inv h
    rcases hcase with ⟨hmem, hrest⟩ | ⟨hmem, fs₁, ev₁, ev₂, hc, hrest, rfl⟩
    · exact ih fs fs₂ ev hrest q (fun c hcm => hq c (List.mem_cons_of_mem _ hcm))
    · have hstep := create_frame hc
        (hq c (List.mem_cons_self _ _) n hn hmem).1
        (hq c (List.mem_cons_self _ _) n hn hmem).2
      rw [ih fs₁ fs₂ ev₂ hrest q (fun c hcm => hq c (List.mem_cons_of_mem _ hcm)), hstep]

theorem createLoop_listdir_frame {sp : Path} {ex : List String} :
    ∀ (courses : List Course) (fs fs₂ : FS) (ev : List Event),
    createLoop sp ex fs courses = some (fs₂, ev) →
    ∀ r : Path,
    (∀ c ∈ courses, ∀ n, coursename? c = some n → n ∉ ex →
      (∀ x : String, ¬((r ++ [x]) <+: (sp ++ [n]))) ∧
      (∀ x : String, r ++ [x] ≠ (sp ++ [n]) ++ ["course_info.txt"])) →
    listdir fs₂ r = listdir fs r := by
  intro courses
  induction courses with
  | nil =>
    intro fs fs₂ ev h r _
    have h' : ((fs, ([] : List Event))) = (fs₂, ev) := Option.some.inj h
    have hfs2 : fs = fs₂ := congrArg Prod.fst h'
    rw [← hfs2]
  | cons c rest ih =>
    intro fs fs₂ ev h r hr
    obtain ⟨n, hn, hcase⟩ := createLoop_cons_inv h
    rcases hcase with ⟨hmem, hrest⟩ | ⟨hmem, fs₁, ev₁, ev₂, hc, hrest, rfl⟩
    · exact ih fs fs₂ ev hrest r (fun c hcm => hr c (List.mem_cons_of_mem _ hcm))
    · have hstep := create_listdir_frame hc
        (hr c (List.mem_cons_self _ _) n hn hmem).1
        (hr c (List.mem_cons_self _ _) n hn hmem).2
      rw [ih fs₁ fs₂ ev₂ hrest r (fun c hcm => hr c (List.mem_cons_of_mem _ hcm)), hstep]

theorem createLoop_dir_or_same {sp : Path} {ex : List String} :
    ∀ (courses : List Course) (fs fs₂ : FS) (ev : List Event),
    createLoop sp ex fs courses = some (fs₂, ev) →
    ∀ q : Path, q.length ≤ sp.length + 1 →
    lookupFS fs₂ q = lookupFS fs q ∨ lookupFS fs₂ q = some .dir := by
  intro courses
  induction courses with
  | nil =>
    intro fs fs₂ ev h q _
    have h' : ((fs, ([] : List Event))) = (fs₂, ev) := Option.some.inj h
    have hfs2 : fs = fs₂ := congrArg Prod.fst h'
    rw [← hfs2]
    exact Or.inl rfl
  | cons c rest ih =>
    intro fs fs₂ ev h q hq
    obtain ⟨n, hn, hcase⟩ := createLoop_cons_inv h
    rcases hcase with ⟨hmem, hrest⟩ | ⟨hmem, fs₁, ev₁, ev₂, hc, hrest, rfl⟩
    · exact ih fs fs₂ ev hrest q hq
    · have hstep := create_dir_or_same hc q (by simpa using hq)
      rcases ih fs₁ fs₂ ev₂ hrest q hq with h₂ | h₂
      · rw [h₂]
        exact hstep
      · exact Or.inr h₂

theorem createLoop_exists_names {sp : Path} {ex : List String} :
    ∀ (courses : List Course) (fs fs₂ : FS) (ev : List Event),
    (∀ n ∈ ex, path_exists fs (sp ++ [n]) = true) →
    createLoop sp ex fs courses = some (fs₂, ev) →
    ∀ c ∈ courses, ∀ n, coursename? c = some n →
    path_exists fs₂ (sp ++ [n]) = true := by
  intro courses
  induction courses with
  | nil =>
    intro fs fs₂ ev _ h c hcm
    simp at hcm
  | cons c0 rest ih =>
    intro fs fs₂ ev hex h c hcm n hn
    obtain ⟨n0, hn0, hcase⟩ := createLoop_cons_inv h
    rcases hcase with ⟨hmem, hrest⟩ | ⟨hmem, fs₁, ev₁, ev₂, hc, hrest, rfl⟩
    · rcases List.mem_cons.mp hcm with rfl | hcm'
      · rw [hn] at hn0
        have hnn : n = n0 := Option.some.inj hn0
        subst hnn
        exact createLoop_exists_mono rest fs fs₂ ev hrest _ (hex n hmem)
      · exact ih fs fs₂ ev hex hrest c hcm' n hn
    · have hex₁ : ∀ m ∈ ex, path_exists fs₁ (sp ++ [m]) = true :=
        fun m hm => create_exists_mono hc (hex m hm)
      rcases List.mem_cons.mp hcm with rfl | hcm'
      · rw [hn] at hn0
        have hnn : n = n0 := Option.some.inj hn0
        subst hnn
        have hx1 : path_exists fs₁ (sp ++ [n]) = true :=
          create_creates hc (by simp)
        exact createLoop_exists_mono rest fs₁ fs₂ ev₂ hrest _ hx1
      · exact ih fs₁ fs₂ ev₂ hex₁ hrest c hcm' n hn

theorem createLoop_cons_create_eq {sp : Path} {ex : List String} {fs : FS}
    {course : Course} {rest : List Course} {n : String} {fs₁ fs₂ : FS}
    {ev₁ ev₂ : List Event}
    (hn : coursename? course = some n) (hmem : n ∉ ex)
    (hc : create_folder_with_info fs (sp ++ [n]) course = some (fs₁, ev₁))
    (hcl : createLoop sp ex fs₁ rest = some (fs₂, ev₂)) :
    createLoop sp ex fs (course :: rest) = some (fs₂, ev₁ ++ ev₂) := by
  rw [createLoop_cons, hn]
  simp only [if_neg hmem]
  rw [hc]
  show (match createLoop sp ex fs₁ rest with
    | none => none
    | some (fsr, evr) => some (fsr, ev₁ ++ evr)) = some (fs₂, ev₁ ++ ev₂)
  rw [hcl]

theorem createLoop_noop {sp : Path} {ex : List String} :
    ∀ (courses : List Course) (fs : FS),
    (∀ c ∈ courses, ∃ n, coursename? c = some n ∧ path_exists fs (sp ++ [n]) = true) →
    ∃ ev, createLoop sp ex fs courses = some (fs, ev) ∧
      ∀ x ∈ ev, isMutation x = false := by
  intro courses
  induction courses with
  | nil =>
    intro fs _
    exact ⟨[], rfl, by simp⟩
  | cons c rest ih =>
    intro fs h
    obtain ⟨n, hn, hex⟩ := h c (List.mem_cons_self _ _)
    obtain ⟨ev, hev, hmut⟩ := ih fs (fun c hc => h c (List.mem_cons_of_mem _ hc))
    by_cases hmem : n ∈ ex
    · refine ⟨ev, ?_, hmut⟩
      rw [createLoop_cons, hn]
      simp only [if_pos hmem]
      exact hev
    · refine ⟨[Event.folderAlreadyExists (sp ++ [n])] ++ ev, ?_, ?_⟩
      · exact createLoop_cons_create_eq hn hmem (create_eq_noop c hex) hev
      · intro x hx
        rcases List.mem_append.mp hx with hx | hx
        · rcases List.mem_singleton.mp hx with rfl
          rfl
        · exact hmut x hx

/-! ### rmtree lemmas -/

theorem isPrefixOf_eq_false_iff {p q : Path} :
    p.isPrefixOf q = false ↔ ¬ p <+: q := by
  rw [← List.isPrefixOf_iff_prefix]
  cases h : p.isPrefixOf q <;> simp

theorem isPrefixOf_eq_true_iff {p q : Path} :
    p.isPrefixOf q = true ↔ p <+: q := List.isPrefixOf_iff_prefix

theorem rmtree_eq {fs fs' : FS} {p : Path} (h : rmtree fs p = some fs') :
    isdir fs p = true ∧ fs' = fs.filter (fun e => !(p.isPrefixOf e.1)) := by
  unfold rmtree at h
  by_cases hd : isdir fs p = true
  · rw [if_pos hd] at h
    exact ⟨hd, (Option.some.inj h).symm⟩
  · rw [if_neg hd] at h
    exact absurd h (by simp)

theorem rmtree_lookup {fs fs' : FS} {p : Path} (h : rmtree fs p = some fs')
    (q : Path) :
    lookupFS fs' q = if p <+: q then none else lookupFS fs q := by
  obtain ⟨-, rfl⟩ := rmtree_eq h
  rw [lookupFS_filter (fun r => !(p.isPrefixOf r))]
  by_cases hp : p <+: q
  · rw [if_pos hp, if_neg]
    simp [isPrefixOf_eq_true_iff.mpr hp]
  · rw [if_neg hp, if_pos]
    simp [isPrefixOf_eq_false_iff.mpr hp]

theorem rmtree_listdir_frame {fs fs' : FS} {p : Path} (h : rmtree fs p = some fs')
    {r : Path} (hr : ∀ x : String, ¬ (p <+: (r ++ [x]))) :
    listdir fs' r = listdir fs r := by
  obtain ⟨-, rfl⟩ := rmtree_eq h
  refine listdir_filter_frame (fun q => !(p.isPrefixOf q)) ?_
  intro n
  simp [isPrefixOf_eq_false_iff.mpr (hr n)]

theorem listdir_filter_subset {fs : FS} {g : Path × Entry → Bool} {p : Path}
    {n : String} (h : n ∈ listdir (fs.filter g) p) : n ∈ listdir fs p := by
  obtain ⟨k, hk⟩ := mem_listdir.mp h
  exact mem_listdir.mpr ⟨k, List.mem_of_mem_filter hk⟩

theorem rmtree_empty_preserved {fs fs₁ : FS} {p d : Path}
    (h : rmtree fs p = some fs₁) (hd : is_directory_empty fs d = true) :
    is_directory_empty fs₁ d = true := by
  unfold is_directory_empty
  by_cases hc : (path_exists fs₁ d && isdir fs₁ d) = true
  · rw [if_pos hc]
    have hdir : isdir fs₁ d = true := (Bool.and_eq_true _ _).mp hc |>.2
    have hlk : lookupFS fs₁ d = some .dir := isdir_iff.mp hdir
    rw [rmtree_lookup h d] at hlk
    by_cases hp : p <+: d
    · rw [if_pos hp] at hlk
      exact absurd hlk (by simp)
    · rw [if_neg hp] at hlk
      have hex : path_exists fs d = true := path_exists_iff.mpr ⟨_, hlk⟩
      have hdir₀ : isdir fs d = true := isdir_iff.mpr hlk
      unfold is_directory_empty at hd
      rw [if_pos (by rw [hex, hdir₀]; rfl)] at hd
      have hnil : listdir fs d = [] := by
        cases hl : listdir fs d with
        | nil => rfl
        | cons a l => rw [hl] at hd; simp at hd
      have : listdir fs₁ d = [] := by
        rw [List.eq_nil_iff_forall_not_mem]
        intro n hn
        obtain ⟨-, rfl⟩ := rmtree_eq h
        have := listdir_filter_subset hn
        rw [hnil] at this
        simp at this
      rw [this]
      rfl
  · rw [if_neg hc]

theorem is_directory_empty_false_intro {fs : FS} {d : Path}
    (hdir : lookupFS fs d = some .dir) (hne : listdir fs d ≠ []) :
    is_directory_empty fs d = false := by
  unfold is_directory_empty
  have hex : path_exists fs d = true := path_exists_iff.mpr ⟨_, hdir⟩
  rw [if_pos (by rw [hex, isdir_iff.mpr hdir]; rfl)]
  cases hl : listdir fs d with
  | nil => exact absurd hl hne
  | cons a l => rfl

/-! ### deleteLoop lemmas -/

theorem deleteLoop_nil (sp : Path) (names : List String) (fs : FS) :
    deleteLoop sp names fs [] = some (fs, []) := rfl

theorem deleteLoop_cons (sp : Path) (names : List String) (fs : FS)
    (e : String) (rest : List String) :
    deleteLoop sp names fs (e :: rest) =
      if e ∈ names then deleteLoop sp names fs rest
      else if is_directory_empty fs (sp ++ [e]) then
        match rmtree fs (sp ++ [e]) with
        | none => none
        | some fs₁ =>
          match deleteLoop sp names fs₁ rest with
          | none => none
          | some (fs₂, ev₂) => some (fs₂, .deletedDirectory (sp ++ [e]) :: ev₂)
      else
        match deleteLoop sp names fs rest with
        | none => none
        | some (fs₂, ev₂) => some (fs₂, .directoryNotEmpty e :: ev₂) := rfl

theorem deleteLoop_cons_inv {sp : Path} {names : List String} {fs : FS}
    {e : String} {rest : List String} {fs₂ : FS} {ev : List Event}
    (h : deleteLoop sp names fs (e :: rest) = some (fs₂, ev)) :
    (e ∈ names ∧ deleteLoop sp names fs rest = some (fs₂, ev)) ∨
    (e ∉ names ∧ is_directory_empty fs (sp ++ [e]) = true ∧
       ∃ fs₁ ev₂, rmtree fs (sp ++ [e]) = some fs₁ ∧
         deleteLoop sp names fs₁ rest = some (fs₂, ev₂) ∧
         ev = .deletedDirectory (sp ++ [e]) :: ev₂) ∨
    (e ∉ names ∧ is_directory_empty fs (sp ++ [e]) = false ∧
       ∃ ev₂, deleteLoop sp names fs rest = some (fs₂, ev₂) ∧
         ev = .directoryNotEmpty e :: ev₂) := by
  rw [deleteLoop_cons] at h
  by_cases hmem : e ∈ names
  · rw [if_pos hmem] at h
    exact Or.inl ⟨hmem, h⟩
  · rw [if_neg hmem] at h
    by_cases hemp : is_directory_empty fs (sp ++ [e]) = true
    · rw [if_pos hemp] at h
      cases hrm : rmtree fs (sp ++ [e]) with
      | none =>
        rw [hrm] at h
        exact absurd h (by simp)
      | some fs₁ =>
        rw [hrm] at h
        have h₂ : (match deleteLoop sp names fs₁ rest with
            | none => none
            | some (fsr, evr) =>
              some (fsr, Event.deletedDirectory (sp ++ [e]) :: evr)) = some (fs₂, ev) := h
        cases hdl : deleteLoop sp names fs₁ rest with
        | none =>
          rw [hdl] at h₂
          exact absurd h₂ (by simp)
        | some pr =>
          obtain ⟨fsr, evr⟩ := pr
          rw [hdl] at h₂
          have h' : ((fsr, Event.deletedDirectory (sp ++ [e]) :: evr) : FS × List Event)
              = (fs₂, ev) := Option.some.inj h₂
          have hfsr : fsr = fs₂ := congrArg Prod.fst h'
          have hevr : ev = Event.deletedDirectory (sp ++ [e]) :: evr :=
            (congrArg Prod.snd h').symm
          refine Or.inr (Or.inl ⟨hmem, hemp, fs₁, evr, rfl, ?_, hevr⟩)
          rw [hdl, hfsr]
    · rw [if_neg hemp] at h
      have h₂ : (match deleteLoop sp names fs rest with
          | none => none
          | some (fsr, evr) => some (fsr, Event.directoryNotEmpty e :: evr))
          = some (fs₂, ev) := h
      cases hdl : deleteLoop sp names fs rest with
      | none =>
        rw [hdl] at h₂
        exact absurd h₂ (by simp)
      | some pr =>
        obtain ⟨fsr, evr⟩ := pr
        rw [hdl] at h₂
        have h' : ((fsr, Event.directoryNotEmpty e :: evr) : FS × List Event)
            = (fs₂, ev) := Option.some.inj h₂
        have hfsr : fsr = fs₂ := congrArg Prod.fst h'
        have hevr : ev = Event.directoryNotEmpty e :: evr := (congrArg Prod.snd h').symm
        refine Or.inr (Or.inr ⟨hmem, by simpa using hemp, evr, ?_, hevr⟩)
        rw [hfsr]

theorem deleteLoop_cons_mem_eq {sp : Path} {names : List String} {fs : FS}
    {e : String} {rest : List String} (hmem : e ∈ names) :
    deleteLoop sp names fs (e :: rest) = deleteLoop sp names fs rest := by
  rw [deleteLoop_cons, if_pos hmem]

theorem deleteLoop_cons_skip_eq {sp : Path} {names : List String} {fs : FS}
    {e : String} {rest : List String} {fs₂ : FS} {ev₂ : List Event}
    (hmem : e ∉ names) (hne : is_directory_empty fs (sp ++ [e]) = false)
    (hrest : deleteLoop sp names fs rest = some (fs₂, ev₂)) :
    deleteLoop sp names fs (e :: rest) = some (fs₂, .directoryNotEmpty e :: ev₂) := by
  rw [deleteLoop_cons, if_neg hmem, if_neg (by simp [hne])]
  show (match deleteLoop sp names fs rest with
    | none => none
    | some (fsr, evr) => some (fsr, Event.directoryNotEmpty e :: evr)) =
    some (fs₂, Event.directoryNotEmpty e :: ev₂)
  rw [hrest]

theorem deleteLoop_down {sp : Path} {names : List String} :
    ∀ (ex : List String) (fs fs₂ : FS) (ev : List Event),
    deleteLoop sp names fs ex = some (fs₂, ev) →
    ∀ (q : Path) (k : Entry), lookupFS fs₂ q = some k → lookupFS fs q = some k := by
  intro ex
  induction ex with
  | nil =>
    intro fs fs₂ ev h q k hk
    have h' : ((fs, ([] : List Event))) = (fs₂, ev) := Option.some.inj h
    have hfs2 : fs = fs₂ := congrArg Prod.fst h'
    rw [hfs2]
    exact hk
  | cons e rest ih =>
    intro fs fs₂ ev h q k hk
    rcases deleteLoop_cons_inv h with ⟨hmem, hrest⟩ |
      ⟨hmem, hemp, fs₁, ev₂, hrm, hrest, rfl⟩ | ⟨hmem, hemp, ev₂, hrest, rfl⟩
    · exact ih fs fs₂ ev hrest q k hk
    · have h₁ := ih fs₁ fs₂ ev₂ hrest q k hk
      rw [rmtree_lookup hrm q] at h₁
      by_cases hp : (sp ++ [e]) <+: q
      · rw [if_pos hp] at h₁
        exact absurd h₁ (by simp)
      · rwa [if_neg hp] at h₁
    · exact ih fs fs₂ ev₂ hrest q k hk

theorem deleteLoop_frame {sp : Path} {names : List String} :
    ∀ (ex : List String) (fs fs₂ : FS) (ev : List Event),
    deleteLoop sp names fs ex = some (fs₂, ev) →
    ∀ q : Path, (∀ e ∈ ex, e ∉ names → ¬((sp ++ [e]) <+: q)) →
    lookupFS fs₂ q = lookupFS fs q := by
  intro ex
  induction ex with
  | nil =>
    intro fs fs₂ ev h q _
    have h' : ((fs, ([] : List Event))) = (fs₂, ev) := Option.some.inj h
    have hfs2 : fs = fs₂ := congrArg Prod.fst h'
    rw [hfs2]
  | cons e rest ih =>
    intro fs fs₂ ev h q hq
    rcases deleteLoop_cons_inv h with ⟨hmem, hrest⟩ |
      ⟨hmem, hemp, fs₁, ev₂, hrm, hrest, rfl⟩ | ⟨hmem, hemp, ev₂, hrest, rfl⟩
    · exact ih fs fs₂ ev hrest q (fun x hx => hq x (List.mem_cons_of_mem _ hx))
    · have hstep : lookupFS fs₁ q = lookupFS fs q := by
        rw [rmtree_lookup hrm q, if_neg (hq e (List.mem_cons_self _ _) hmem)]
      rw [ih fs₁ fs₂ ev₂ hrest q (fun x hx => hq x (List.mem_cons_of_mem _ hx)), hstep]
    · exact ih fs fs₂ ev₂ hrest q (fun x hx => hq x (List.mem_cons_of_mem _ hx))

theorem deleteLoop_listdir_frame {sp : Path} {names : List String} :
    ∀ (ex : List String) (fs fs₂ : FS) (ev : List Event),
    deleteLoop sp names fs ex = some (fs₂, ev) →
    ∀ r : Path, (∀ e ∈ ex, e ∉ names → ∀ x : String, ¬((sp ++ [e]) <+: (r ++ [x]))) →
    listdir fs₂ r = listdir fs r := by
  intro ex
  induction ex with
  | nil =>
    intro fs fs₂ ev h r _
    have h' : ((fs, ([] : List Event))) = (fs₂, ev) := Option.some.inj h
    have hfs2 : fs = fs₂ := congrArg Prod.fst h'
    rw [hfs2]
  | cons e rest ih =>
    intro fs fs₂ ev h r hr
    rcases deleteLoop_cons_inv h with ⟨hmem, hrest⟩ |
      ⟨hmem, hemp, fs₁, ev₂, hrm, hrest, rfl⟩ | ⟨hmem, hemp, ev₂, hrest, rfl⟩
    · exact ih fs fs₂ ev hrest r (fun x hx => hr x (List.mem_cons_of_mem _ hx))
    · have hstep : listdir fs₁ r = listdir fs r :=
        rmtree_listdir_frame hrm (hr e (List.mem_cons_self _ _) hmem)
      rw [ih fs₁ fs₂ ev₂ hrest r (fun x hx => hr x (List.mem_cons_of_mem _ hx)), hstep]
    · exact ih fs fs₂ ev₂ hrest r (fun x hx => hr x (List.mem_cons_of_mem _ hx))

theorem deleteLoop_empty_deleted {sp : Path} {names : List String} :
    ∀ (ex : List String) (fs fs₂ : FS) (ev : List Event),
    deleteLoop sp names fs ex = some (fs₂, ev) →
    ∀ e ∈ ex, e ∉ names → is_directory_empty fs (sp ++ [e]) = true →
    path_exists fs₂ (sp ++ [e]) = false := by
  intro ex
  induction ex with
  | nil =>
    intro fs fs₂ ev h e he
    simp at he
  | cons e0 rest ih =>
    intro fs fs₂ ev h e he hmem hemp
    rcases deleteLoop_cons_inv h with ⟨hmem0, hrest⟩ |
      ⟨hmem0, hemp0, fs₁, ev₂, hrm, hrest, rfl⟩ | ⟨hmem0, hemp0, ev₂, hrest, rfl⟩
    · rcases List.mem_cons.mp he with rfl | he'
      · exact absurd hmem0 hmem
      · exact ih fs fs₂ ev hrest e he' hmem hemp
    · by_cases heq : e = e0
      · subst heq
        rw [path_exists_eq_false_iff]
        cases hk : lookupFS fs₂ (sp ++ [e]) with
        | none => rfl
        | some k =>
          have h₁ := deleteLoop_down rest fs₁ fs₂ ev₂ hrest _ k hk
          rw [rmtree_lookup hrm, if_pos (List.prefix_refl _)] at h₁
          exact absurd h₁ (by simp)
      · rcases List.mem_cons.mp he with heq' | he'
        · exact absurd heq' heq
        · exact ih fs₁ fs₂ ev₂ hrest e he' hmem (rmtree_empty_preserved hrm hemp)
    · rcases List.mem_cons.mp he with rfl | he'
      · simp [hemp] at hemp0
      · exact ih fs fs₂ ev₂ hrest e he' hmem hemp

theorem deleteLoop_subtree_preserved {sp : Path} {names : List String} {e : String} :
    ∀ (ex : List String) (fs fs₂ : FS) (ev : List Event),
    deleteLoop sp names fs ex = some (fs₂, ev) →
    e ∉ names → lookupFS fs (sp ++ [e]) = some .dir →
    listdir fs (sp ++ [e]) ≠ [] →
    (∀ q, (sp ++ [e]) <+: q → lookupFS fs₂ q = lookupFS fs q) ∧
    (∀ r, (sp ++ [e]) <+: r → listdir fs₂ r = listdir fs r) := by
  intro ex
  induction ex with
  | nil =>
    intro fs fs₂ ev h _ _ _
    have h' : ((fs, ([] : List Event))) = (fs₂, ev) := Option.some.inj h
    have hfs2 : fs = fs₂ := congrArg Prod.fst h'
    rw [← hfs2]
    exact ⟨fun _ _ => rfl, fun _ _ => rfl⟩
  | cons e0 rest ih =>
    intro fs fs₂ ev h hmem hdir hne
    rcases deleteLoop_cons_inv h with ⟨hmem0, hrest⟩ |
      ⟨hmem0, hemp0, fs₁, ev₂, hrm, hrest, rfl⟩ | ⟨hmem0, hemp0, ev₂, hrest, rfl⟩
    · exact ih fs fs₂ ev hrest hmem hdir hne
    · have hne0 : e0 ≠ e := by
        intro hcon
        subst hcon
        rw [is_directory_empty_false_intro hdir hne] at hemp0
        exact absurd hemp0 (by simp)
      have hlk : ∀ q, (sp ++ [e]) <+: q → lookupFS fs₁ q = lookupFS fs q := by
        intro q hq
        have hnp : ¬ ((sp ++ [e0]) <+: q) := fun hcon => hne0 (prefix_snoc_eq hcon hq)
        rw [rmtree_lookup hrm q, if_neg hnp]
      have hld : ∀ r, (sp ++ [e]) <+: r → listdir fs₁ r = listdir fs r := by
        intro r hr
        refine rmtree_listdir_frame hrm ?_
        intro x hcon
        exact hne0 (prefix_snoc_eq hcon (hr.trans (List.prefix_append r [x])))
      have hdir₁ : lookupFS fs₁ (sp ++ [e]) = some .dir := by
        rw [hlk _ (List.prefix_refl _)]
        exact hdir
      have hne₁ : listdir fs₁ (sp ++ [e]) ≠ [] := by
        rw [hld _ (List.prefix_refl _)]
        exact hne
      obtain ⟨ih₁, ih₂⟩ := ih fs₁ fs₂ ev₂ hrest hmem hdir₁ hne₁
      constructor
      · intro q hq
        rw [ih₁ q hq, hlk q hq]
      · intro r hr
        rw [ih₂ r hr, hld r hr]
    · exact ih fs fs₂ ev₂ hrest hmem hdir hne

theorem deleteLoop_diag_mem {sp : Path} {names : List String} {e : String} :
    ∀ (ex : List String) (fs fs₂ : FS) (ev : List Event),
    deleteLoop sp names fs ex = some (fs₂, ev) →
    e ∈ ex → e ∉ names → lookupFS fs (sp ++ [e]) = some .dir →
    listdir fs (sp ++ [e]) ≠ [] →
    Event.directoryNotEmpty e ∈ ev := by
  intro ex
  induction ex with
  | nil =>
    intro fs fs₂ ev h he
    simp at he
  | cons e0 rest ih =>
    intro fs fs₂ ev h he hmem hdir hne
    rcases deleteLoop_cons_inv h with ⟨hmem0, hrest⟩ |
      ⟨hmem0, hemp0, fs₁, ev₂, hrm, hrest, rfl⟩ | ⟨hmem0, hemp0, ev₂, hrest, rfl⟩
    · rcases List.mem_cons.mp he with rfl | he'
      · exact absurd hmem0 hmem
      · exact ih fs fs₂ ev hrest he' hmem hdir hne
    · have hne0 : e0 ≠ e := by
        intro hcon
        subst hcon
        rw [is_directory_empty_false_intro hdir hne] at hemp0
        exact absurd hemp0 (by simp)
      have he' : e ∈ rest := by
        rcases List.mem_cons.mp he with rfl | he'
        · exact absurd rfl hne0
        · exact he'
      have hdir₁ : lookupFS fs₁ (sp ++ [e]) = some .dir := by
        have hnp : ¬ ((sp ++ [e0]) <+: (sp ++ [e])) :=
          fun hcon => hne0 (prefix_snoc_snoc hcon)
        rw [rmtree_lookup hrm, if_neg hnp]
        exact hdir
      have hne₁ : listdir fs₁ (sp ++ [e]) ≠ [] := by
        have : listdir fs₁ (sp ++ [e]) = listdir fs (sp ++ [e]) := by
          refine rmtree_listdir_frame hrm ?_
          intro x hcon
          exact hne0 (prefix_snoc_eq hcon
            ((List.prefix_refl (sp ++ [e])).trans (List.prefix_append _ [x])))
        rw [this]
        exact hne
      exact List.mem_cons_of_mem _ (ih fs₁ fs₂ ev₂ hrest he' hmem hdir₁ hne₁)
    · by_cases heq : e = e0
      · subst heq
        exact List.mem_cons_self _ _
      · have he' : e ∈ rest := by
          rcases List.mem_cons.mp he with heq' | he'
          · exact absurd heq' heq
          · exact he'
        exact List.mem_cons_of_mem _ (ih fs fs₂ ev₂ hrest he' hmem hdir hne)

theorem deleteLoop_all_skip {sp : Path} {names : List String} :
    ∀ (ex : List String) (fs : FS),
    (∀ e ∈ ex, e ∉ names → is_directory_empty fs (sp ++ [e]) = false) →
    ∃ ev, deleteLoop sp names fs ex = some (fs, ev) ∧
      ∀ x ∈ ev, isMutation x = false := by
  intro ex
  induction ex with
  | nil =>
    intro fs _
    exact ⟨[], deleteLoop_nil sp names fs, by simp⟩
  | cons e rest ih =>
    intro fs h
    obtain ⟨ev, hev, hmut⟩ := ih fs (fun x hx => h x (List.mem_cons_of_mem _ hx))
    by_cases hmem : e ∈ names
    · refine ⟨ev, ?_, hmut⟩
      rw [deleteLoop_cons_mem_eq hmem]
      exact hev
    · refine ⟨Event.directoryNotEmpty e :: ev,
        deleteLoop_cons_skip_eq hmem (h e (List.mem_cons_self _ _) hmem) hev, ?_⟩
      intro x hx
      rcases List.mem_cons.mp hx with rfl | hx'
      · rfl
      · exact hmut x hx'

/-! ### get_existing_directories, coursenames?, synchronize_directories -/

theorem get_existing_eq_nil {fs : FS} {sp : Path} (h : path_exists fs sp = false) :
    get_existing_directories fs sp = some [] := by
  unfold get_existing_directories
  rw [if_neg (by simp [h])]

theorem get_existing_inv {fs : FS} {sp : Path} {ex : List String}
    (h : get_existing_directories fs sp = some ex) :
    (path_exists fs sp = false ∧ ex = []) ∨
    (isdir fs sp = true ∧
      ex = (listdir fs sp).filter (fun d => isdir fs (sp ++ [d]))) := by
  unfold get_existing_directories at h
  by_cases hex : path_exists fs sp = true
  · rw [if_pos hex] at h
    by_cases hd : isdir fs sp = true
    · rw [if_pos hd] at h
      exact Or.inr ⟨hd, (Option.some.inj h).symm⟩
    · rw [if_neg hd] at h
      exact absurd h (by simp)
  · rw [if_neg hex] at h
    exact Or.inl ⟨by simpa using hex, (Option.some.inj h).symm⟩

theorem mem_get_existing_isdir {fs : FS} {sp : Path} {ex : List String}
    (h : get_existing_directories fs sp = some ex) {e : String} (he : e ∈ ex) :
    lookupFS fs (sp ++ [e]) = some .dir := by
  rcases get_existing_inv h with ⟨-, rfl⟩ | ⟨-, rfl⟩
  · simp at he
  · exact isdir_iff.mp (List.mem_filter.mp he).2

theorem dir_child_mem_get_existing {fs : FS} {sp : Path} {ex : List String}
    (hwf : wf fs = true) (hsp : sp ≠ [])
    (h : get_existing_directories fs sp = some ex) {e : String}
    (hd : lookupFS fs (sp ++ [e]) = some .dir) : e ∈ ex := by
  rcases get_existing_inv h with ⟨hnex, rfl⟩ | ⟨-, rfl⟩
  · exfalso
    have hdir : isdir fs sp = true :=
      wf_ancestor hwf (lookupFS_mem hd) hsp (List.prefix_append sp [e]) (by simp)
    rw [exists_of_isdir hdir] at hnex
    exact absurd hnex (by simp)
  · exact List.mem_filter.mpr ⟨mem_listdir.mpr ⟨_, lookupFS_mem hd⟩, isdir_iff.mpr hd⟩

theorem coursenames_cons_inv {c : Course} {rest : List Course} {names : List String}
    (h : coursenames? (c :: rest) = some names) :
    ∃ n ns, coursename? c = some n ∧ coursenames? rest = some ns ∧ names = n :: ns := by
  unfold coursenames? at h
  cases hn : coursename? c with
  | none =>
    rw [hn] at h
    exact absurd h (by simp)
  | some n =>
    rw [hn] at h
    cases hns : coursenames? rest with
    | none =>
      rw [hns] at h
      exact absurd h (by simp)
    | some ns =>
      rw [hns] at h
      exact ⟨n, ns, rfl, rfl, (Option.some.inj h).symm⟩

theorem coursenames_forall : ∀ {courses : List Course} {names : List String},
    coursenames? courses = some names →
    ∀ c ∈ courses, ∃ n, coursename? c = some n ∧ n ∈ names := by
  intro courses
  induction courses with
  | nil =>
    intro names _ c hc
    simp at hc
  | cons c0 rest ih =>
    intro names h c hc
    obtain ⟨n, ns, hn, hns, rfl⟩ := coursenames_cons_inv h
    rcases List.mem_cons.mp hc with rfl | hc'
    · exact ⟨n, hn, List.mem_cons_self _ _⟩
    · obtain ⟨m, hm, hmem⟩ := ih hns c hc'
      exact ⟨m, hm, List.mem_cons_of_mem _ hmem⟩

theorem name_mem_of_coursenames : ∀ {courses : List Course} {names : List String},
    coursenames? courses = some names →
    ∀ c ∈ courses, ∀ n, coursename? c = some n → n ∈ names := by
  intro courses
  induction courses with
  | nil =>
    intro names _ c hc
    simp at hc
  | cons c0 rest ih =>
    intro names h c hc n hn
    obtain ⟨m, ns, hm, hns, rfl⟩ := coursenames_cons_inv h
    rcases List.mem_cons.mp hc with rfl | hc'
    · rw [hn] at hm
      have : n = m := Option.some.inj hm
      rw [this]
      exact List.mem_cons_self _ _
    · exact List.mem_cons_of_mem _ (ih hns c hc' n hn)

theorem synchronize_inv {fs : FS} {od : Path} {sem : String} {courses : List Course}
    {fs' : FS} {ev : List Event}
    (h : synchronize_directories fs od sem courses = some (fs', ev)) :
    ∃ ex names fsA evA evB,
      get_existing_directories fs (od ++ [sem]) = some ex ∧
      coursenames? courses = some names ∧
      createLoop (od ++ [sem]) ex fs courses = some (fsA, evA) ∧
      deleteLoop (od ++ [sem]) names fsA ex = some (fs', evB) ∧
      ev = evA ++ evB := by
  unfold synchronize_directories at h
  cases hex : get_existing_directories fs (od ++ [sem]) with
  | none =>
    rw [hex] at h
    exact absurd h (by simp)
  | some ex =>
    rw [hex] at h
    cases hnames : coursenames? courses with
    | none =>
      rw [hnames] at h
      exact absurd h (by simp)
    | some names =>
      rw [hnames] at h
      have h₁ : (match createLoop (od ++ [sem]) ex fs courses with
          | none => none
          | some (fs₁, ev₁) =>
            match deleteLoop (od ++ [sem]) names fs₁ ex with
            | none => none
            | some (fsr, evr) => some (fsr, ev₁ ++ evr)) = some (fs', ev) := h
      cases hcl : createLoop (od ++ [sem]) ex fs courses with
      | none =>
        rw [hcl] at h₁
        exact absurd h₁ (by simp)
      | some prA =>
        obtain ⟨fsA, evA⟩ := prA
        rw [hcl] at h₁
        have h₂ : (match deleteLoop (od ++ [sem]) names fsA ex with
            | none => none
            | some (fsr, evr) => some (fsr, evA ++ evr)) = some (fs', ev) := h₁
        cases hdl : deleteLoop (od ++ [sem]) names fsA ex with
        | none =>
          rw [hdl] at h₂
          exact absurd h₂ (by simp)
        | some prB =>
          obtain ⟨fsB, evB⟩ := prB
          rw [hdl] at h₂
          have h' : ((fsB, evA ++ evB) : FS × List Event) = (fs', ev) :=
            Option.some.inj h₂
          have hfs : fsB = fs' := congrArg Prod.fst h'
          have hev : ev = evA ++ evB := (congrArg Prod.snd h').symm
          refine ⟨ex, names, fsA, evA, evB, rfl, rfl, ?_, ?_, hev⟩
          · rw [hcl]
          · rw [hdl, hfs]

theorem synchronize_mk {fs : FS} {od : Path} {sem : String} {courses : List Course}
    {ex names : List String} {fsA fs₂ : FS} {evA evB : List Event}
    (hex : get_existing_directories fs (od ++ [sem]) = some ex)
    (hnames : coursenames? courses = some names)
    (hcl : createLoop (od ++ [sem]) ex fs courses = some (fsA, evA))
    (hdl : deleteLoop (od ++ [sem]) names fsA ex = some (fs₂, evB)) :
    synchronize_directories fs od sem courses = some (fs₂, evA ++ evB) := by
  unfold synchronize_directories
  rw [hex, hnames]
  show (match createLoop (od ++ [sem]) ex fs courses with
    | none => none
    | some (fs₁, ev₁) =>
      match deleteLoop (od ++ [sem]) names fs₁ ex with
      | none => none
      | some (fsr, evr) => some (fsr, ev₁ ++ evr)) = some (fs₂, evA ++ evB)
  rw [hcl]
  show (match deleteLoop (od ++ [sem]) names fsA ex with
    | none => none
    | some (fsr, evr) => some (fsr, evA ++ evr)) = some (fs₂, evA ++ evB)
  rw [hdl]

/-! ### Prompt lemmas -/

theorem select_directory_chosen_mem :
    ∀ (keys : List Key) (dirs : List String) (cursor : Nat) (d : String),
    select_directory dirs cursor keys = .chosen d → d ∈ dirs := by
  intro keys
  induction keys with
  | nil =>
    intro dirs cursor d h
    exact absurd h (by simp [select_directory])
  | cons k rest ih =>
    intro dirs cursor d h
    cases k with
    | enter =>
      have h' : (match dirs.get? cursor with
          | some x => SelOutcome.chosen x
          | none => SelOutcome.crashed) = SelOutcome.chosen d := h
      cases hg : dirs.get? cursor with
      | some x =>
        rw [hg] at h'
        have hx : x = d := by injection h'
        rw [← hx]
        exact List.get?_mem hg
      | none =>
        rw [hg] at h'
        exact absurd h' (by simp)
    | up => exact ih dirs _ d h
    | down => exact ih dirs _ d h
    | other code => exact ih dirs _ d h

theorem select_json_file_chosen_url :
    ∀ (keys : List Key) (files : List GitFile) (cursor : Nat) (v : String),
    select_json_file files cursor keys = .chosen v →
    ∃ f ∈ files, v = f.download_url := by
  intro keys
  induction keys with
  | nil =>
    intro files cursor v h
    exact absurd h (by simp [select_json_file])
  | cons k rest ih =>
    intro files cursor v h
    cases k with
    | enter =>
      have h' : (match files.get? cursor with
          | some f => SelOutcome.chosen f.download_url
          | none => SelOutcome.crashed) = SelOutcome.chosen v := h
      cases hg : files.get? cursor with
      | some f =>
        rw [hg] at h'
        have hx : f.download_url = v := by injection h'
        exact ⟨f, List.get?_mem hg, hx.symm⟩
      | none =>
        rw [hg] at h'
        exact absurd h' (by simp)
    | up => exact ih files _ v h
    | down => exact ih files _ v h
    | other code => exact ih files _ v h

/-! ### Claims -/

/-- Claim C3: the semester resolver, as a pure function of the current month
and year, returns "Spring {y+1}" for months 11-12, "Fall {y}" for months
6-10, and "Summer {y}" for months 1-5. -/
theorem C3_determine_semester (m y : Nat) :
    ((11 ≤ m ∧ m ≤ 12) → determine_semester m y = "Spring " ++ toString (y + 1)) ∧
    ((6 ≤ m ∧ m ≤ 10) → determine_semester m y = "Fall " ++ toString y) ∧
    ((1 ≤ m ∧ m ≤ 5) → determine_semester m y = "Summer " ++ toString y) := by
  refine ⟨?_, ?_, ?_⟩
  · intro h
    unfold determine_semester
    rw [if_pos h]
  · intro h
    unfold determine_semester
    rw [if_neg (by omega), if_pos h]
  · intro h
    unfold determine_semester
    rw [if_neg (by omega), if_neg (by omega)]

/-- Witness for C3 at the months named by the claim. -/
theorem C3_determine_semester_witness :
    determine_semester 11 2023 = "Spring " ++ toString (2023 + 1) ∧
    determine_semester 12 2023 = "Spring " ++ toString (2023 + 1) ∧
    determine_semester 6 2024 = "Fall " ++ toString 2024 ∧
    determine_semester 10 2024 = "Fall " ++ toString 2024 ∧
    determine_semester 1 2024 = "Summer " ++ toString 2024 ∧
    determine_semester 3 2024 = "Summer " ++ toString 2024 :=
  ⟨(C3_determine_semester 11 2023).1 (by decide),
   (C3_determine_semester 12 2023).1 (by decide),
   (C3_determine_semester 6 2024).2.1 (by decide),
   (C3_determine_semester 10 2024).2.1 (by decide),
   (C3_determine_semester 1 2024).2.2 (by decide),
   (C3_determine_semester 3 2024).2.2 (by decide)⟩

/-- Claim C6: when the semester path does not exist, reading the existing set
returns the empty set with no error, and synchronization proceeds as the
creation pass alone over an empty existing set (the deletion pass over the
empty existing list is the identity). -/
theorem C6_missing_semester_path (fs : FS) (od : Path) (sem : String)
    (courses : List Course) (h : path_exists fs (od ++ [sem]) = false) :
    get_existing_directories fs (od ++ [sem]) = some [] ∧
    synchronize_directories fs od sem courses =
      (match coursenames? courses with
       | none => none
       | some _ => createLoop (od ++ [sem]) [] fs courses) := by
  refine ⟨get_existing_eq_nil h, ?_⟩
  unfold synchronize_directories
  rw [get_existing_eq_nil h]
  cases hnames : coursenames? courses with
  | none => rfl
  | some names =>
    show (match createLoop (od ++ [sem]) [] fs courses with
      | none => none
      | some (fs₁, ev₁) =>
        match deleteLoop (od ++ [sem]) names fs₁ [] with
        | none => none
        | some (fsr, evr) => some (fsr, ev₁ ++ evr)) =
      createLoop (od ++ [sem]) [] fs courses
    cases hcl : createLoop (od ++ [sem]) [] fs courses with
    | none => rfl
    | some pr =>
      obtain ⟨fsA, evA⟩ := pr
      show some (fsA, evA ++ []) = some (fsA, evA)
      rw [List.append_nil]

/-- Witness for C6 at a concrete store where the semester path is absent. -/
theorem C6_missing_semester_path_witness :
    get_existing_directories [((["od"] : Path), Entry.dir)] (["od"] ++ ["S"]) = some [] ∧
    synchronize_directories [((["od"] : Path), Entry.dir)] ["od"] "S"
        [[("coursename", "A")]] =
      (match coursenames? [[("coursename", "A")]] with
       | none => none
       | some _ =>
         createLoop (["od"] ++ ["S"]) [] [((["od"] : Path), Entry.dir)]
           [[("coursename", "A")]]) :=
  C6_missing_semester_path [((["od"] : Path), Entry.dir)] ["od"] "S"
    [[("coursename", "A")]] (by decide)

/-- Claim C7 counterexample: the JSON-file prompt does not return an element
of the supplied list: it returns the `download_url` field of the element
under the cursor.  Selecting either of two distinct supplied records yields
the very same string "u", which equals neither record (the returned value is
a field projection, not the element). -/
theorem C7_counterexample :
    select_json_file [⟨"a.json", "u"⟩, ⟨"b.json", "u"⟩] 0 [Key.enter] =
      SelOutcome.chosen "u" ∧
    select_json_file [⟨"a.json", "u"⟩, ⟨"b.json", "u"⟩] 0 [Key.down, Key.enter] =
      SelOutcome.chosen "u" ∧
    (⟨"a.json", "u"⟩ : GitFile) ≠ ⟨"b.json", "u"⟩ ∧
    (∀ f ∈ ([⟨"a.json", "u"⟩, ⟨"b.json", "u"⟩] : List GitFile),
      f.download_url = "u" ∧ f.name ≠ "u") := by
  refine ⟨by decide, by decide, by decide, ?_⟩
  intro f hf
  rcases List.mem_cons.mp hf with rfl | hf'
  · exact ⟨rfl, by decide⟩
  · rcases List.mem_cons.mp hf' with rfl | hf''
    · exact ⟨rfl, by decide⟩
    · simp at hf''

/-- Claim C7 (amended): for every non-empty item list, the directory prompt
returns exactly one element of the supplied list (or blocks/crashes), while
the JSON prompt returns the `download_url` field of exactly one element of
the supplied list. -/
theorem C7_prompt_returns (dirs : List String) (files : List GitFile)
    (keys keys₂ : List Key) (d v : String) :
    (dirs ≠ [] → select_directory dirs 0 keys = .chosen d → d ∈ dirs) ∧
    (files ≠ [] → select_json_file files 0 keys₂ = .chosen v →
      ∃ f ∈ files, v = f.download_url) := by
  constructor
  · intro _ h
    exact select_directory_chosen_mem keys dirs 0 d h
  · intro _ h
    exact select_json_file_chosen_url keys₂ files 0 v h

/-- Witness for C7 (amended) on singleton lists with an immediate ENTER. -/
theorem C7_prompt_returns_witness :
    "a" ∈ ["a", "b"] ∧ ∃ f ∈ ([⟨"n", "u"⟩] : List GitFile), "u" = f.download_url :=
  ⟨(C7_prompt_returns ["a", "b"] [⟨"n", "u"⟩] [Key.enter] [Key.enter] "a" "u").1
      (by decide) (by decide),
   (C7_prompt_returns ["a", "b"] [⟨"n", "u"⟩] [Key.enter] [Key.enter] "a" "u").2
      (by decide) (by decide)⟩

theorem getLastD_decomp {dp : Path} (h : dp ≠ []) :
    dp = dp.dropLast ++ [dp.getLastD ""] := by
  conv_lhs => rw [← List.dropLast_append_getLast h]
  congr 1
  rw [List.getLastD_eq_getLast?, List.getLast?_eq_getLast _ h]
  rfl

/-- Claim C8: archiving a folder produces a single zip named
"<basename>.zip" placed in the archive directory, whose entries are exactly
the files strictly under the source folder, each stored at its path relative
to the source folder's parent; hence every entry path starts with the
folder's basename (the archive root is the folder itself). -/
theorem C8_archive_directory (fs : FS) (dp ap : Path) (hne : dp ≠ []) :
    (archive_directory fs dp ap).1 = ap ++ [dp.getLastD "" ++ ".zip"] ∧
    (∀ (r : Path) (c : String),
      (r, c) ∈ (archive_directory fs dp ap).2 ↔
        ∃ q, (q, Entry.file c) ∈ fs ∧ dp <+: q ∧ dp ≠ q ∧
          r = q.drop (dp.length - 1)) ∧
    (∀ (r : Path) (c : String), (r, c) ∈ (archive_directory fs dp ap).2 →
      r.head? = some (dp.getLastD "")) := by
  have hmem : ∀ (r : Path) (c : String),
      (r, c) ∈ (archive_directory fs dp ap).2 ↔
        ∃ q, (q, Entry.file c) ∈ fs ∧ dp <+: q ∧ dp ≠ q ∧
          r = q.drop (dp.length - 1) := by
    intro r c
    show (r, c) ∈ archive_entries fs dp ↔ _
    unfold archive_entries
    rw [List.mem_filterMap]
    constructor
    · rintro ⟨e, he, hf⟩
      obtain ⟨q, k⟩ := e
      cases k with
      | dir => exact absurd hf (by simp)
      | file cc =>
        have hf' : (if dp.isPrefixOf q ∧ dp ≠ q then
            some (q.drop (dp.length - 1), cc) else none) = some (r, c) := hf
        by_cases hcond : dp.isPrefixOf q ∧ dp ≠ q
        · rw [if_pos hcond] at hf'
          have h' : ((q.drop (dp.length - 1), cc) : Path × String) = (r, c) :=
            Option.some.inj hf'
          have hr : r = q.drop (dp.length - 1) := (congrArg Prod.fst h').symm
          have hcc : cc = c := congrArg Prod.snd h'
          subst hcc
          exact ⟨q, he, isPrefixOf_eq_true_iff.mp hcond.1, hcond.2, hr⟩
        · rw [if_neg hcond] at hf'
          exact absurd hf' (by simp)
    · rintro ⟨q, hq, hpfx, hne', rfl⟩
      refine ⟨(q, Entry.file c), hq, ?_⟩
      show (if dp.isPrefixOf q ∧ dp ≠ q then
          some (q.drop (dp.length - 1), c) else none) =
        some (q.drop (dp.length - 1), c)
      rw [if_pos ⟨isPrefixOf_eq_true_iff.mpr hpfx, hne'⟩]
  refine ⟨rfl, hmem, ?_⟩
  intro r c hr
  obtain ⟨q, -, hpfx, hne', rfl⟩ := (hmem r c).mp hr
  obtain ⟨t, rfl⟩ := hpfx
  have ht : t ≠ [] := by
    intro hcon
    rw [hcon, List.append_nil] at hne'
    exact hne' rfl
  obtain ⟨dl, g, hdp, hg⟩ : ∃ dl g, dp = dl ++ [g] ∧ dp.getLastD "" = g :=
    ⟨dp.dropLast, dp.getLastD "", getLastD_decomp hne, rfl⟩
  rw [hg, hdp]
  have hlen : (dl ++ [g]).length - 1 = dl.length := by simp
  rw [hlen, List.append_assoc, List.drop_left]
  rfl

/-- Witness for C8 on a concrete tree: archiving od/S into "arch" yields
"arch/S.zip" containing the file S/f.txt. -/
theorem C8_archive_directory_witness :
    (archive_directory
        [((["od"] : Path), Entry.dir), ((["od", "S"] : Path), Entry.dir),
         ((["od", "S", "f.txt"] : Path), Entry.file "z")]
        ["od", "S"] ["arch"]).1 =
      ["arch"] ++ [(["od", "S"] : Path).getLastD "" ++ ".zip"] ∧
    ((["S", "f.txt"] : Path), "z") ∈
      (archive_directory
        [((["od"] : Path), Entry.dir), ((["od", "S"] : Path), Entry.dir),
         ((["od", "S", "f.txt"] : Path), Entry.file "z")]
        ["od", "S"] ["arch"]).2 :=
  ⟨(C8_archive_directory
      [((["od"] : Path), Entry.dir), ((["od", "S"] : Path), Entry.dir),
       ((["od", "S", "f.txt"] : Path), Entry.file "z")]
      ["od", "S"] ["arch"] (by decide)).1,
   ((C8_archive_directory
      [((["od"] : Path), Entry.dir), ((["od", "S"] : Path), Entry.dir),
       ((["od", "S", "f.txt"] : Path), Entry.file "z")]
      ["od", "S"] ["arch"] (by decide)).2.1 ["S", "f.txt"] "z").mpr
    ⟨["od", "S", "f.txt"], by decide,
     isPrefixOf_eq_true_iff.mp (by decide), by decide, by decide⟩⟩

/-- Claim C4 counterexample: with an existing file "a" and target path
a/b, the path does not exist, yet provisioning raises (`os.makedirs` fails
on the file ancestor) instead of creating the directory and writing the
descriptor file, so the claim's "otherwise" branch is false as stated. -/
theorem C4_counterexample :
    path_exists [((["a"] : Path), Entry.file "")] ["a", "b"] = false ∧
    create_folder_with_info [((["a"] : Path), Entry.file "")] ["a", "b"]
      [("coursename", "X")] = none := by decide

/-- Claim C4 (amended): provisioning is a no-op (only logging "already
exists") whenever the path exists, regardless of type; otherwise — provided
the path is nonempty and every proper ancestor is a directory or absent
(else the operation raises) and the store is well formed — it creates the
directory and writes exactly one descriptor file inside it whose content is
one "key: value" line per field in insertion order. -/
theorem C4_create_folder (fs : FS) (p : Path) (r : Course) :
    (path_exists fs p = true →
      create_folder_with_info fs p r = some (fs, [Event.folderAlreadyExists p])) ∧
    (path_exists fs p = false → p ≠ [] → wf fs = true →
      (∀ q ∈ pathPrefixes p, q ≠ p →
        lookupFS fs q = none ∨ lookupFS fs q = some Entry.dir) →
      ∃ fs₂, create_folder_with_info fs p r =
          some (fs₂, [Event.folderCreated p,
                      Event.infoFileCreated (p ++ ["course_info.txt"])]) ∧
        lookupFS fs₂ p = some Entry.dir ∧
        listdir fs₂ p = ["course_info.txt"] ∧
        lookupFS fs₂ (p ++ ["course_info.txt"]) =
          some (Entry.file (String.join
            (r.map (fun kv => kv.1 ++ ": " ++ kv.2 ++ "\n"))))) := by
  constructor
  · intro hex
    exact create_eq_noop r hex
  · intro hnex hp hwf hanc
    have hprefs : ∀ q ∈ pathPrefixes p,
        lookupFS fs q = none ∨ lookupFS fs q = some Entry.dir := by
      intro q hq
      by_cases hqp : q = p
      · subst hqp
        exact Or.inl (path_exists_eq_false_iff.mp hnex)
      · exact hanc q hq hqp
    obtain ⟨fs₁, hmk⟩ := mkdirPrefixes_success (pathPrefixes p) fs hprefs
    have hmd : makedirs fs p = some fs₁ := by
      unfold makedirs
      rw [if_neg (by simp [hnex])]
      exact hmk
    have hinfo_ne : p ≠ p ++ ["course_info.txt"] := by
      intro hcon
      have := congrArg List.length hcon
      rw [infoPath_length] at this
      omega
    have hcreate : create_folder_with_info fs p r =
        some (writeFile fs₁ (p ++ ["course_info.txt"]) (renderInfo r),
              [Event.folderCreated p,
               Event.infoFileCreated (p ++ ["course_info.txt"])]) := by
      unfold create_folder_with_info
      rw [if_neg (by simp [hnex]), hmd]
    refine ⟨_, hcreate, ?_, ?_, ?_⟩
    · rw [lookupFS_writeFile_other _ _ _ hinfo_ne]
      exact makedirs_lookup_prefix hmd hp (List.prefix_refl _)
    · obtain ⟨add, rfl, hadd⟩ := makedirs_shape hmd
      have hnochild : listdir fs p = [] := wf_no_children_of_not_exists hwf hp hnex
      have hnoadd : listdir add p = [] := by
        refine listdir_eq_nil_of_no_children ?_
        intro e he
        cases hc : childName p e.1 with
        | none => rfl
        | some x =>
          exfalso
          have hx := childName_eq_some.mp hc
          have hlen := ((hadd e he).2.1.2).length_le
          rw [hx] at hlen
          simp at hlen
      have hfilter : (fs ++ add).filter
          (fun e => decide (e.1 ≠ p ++ ["course_info.txt"])) = fs ++ add := by
        refine List.filter_eq_self.mpr ?_
        intro e he
        simp only [decide_eq_true_eq]
        intro hcon
        rcases List.mem_append.mp he with hef | hea
        · have : "course_info.txt" ∈ listdir fs p :=
            mem_listdir.mpr ⟨e.2, by rw [← hcon]; exact hef⟩
          rw [hnochild] at this
          simp at this
        · have hlen := ((hadd e hea).2.1.2).length_le
          rw [hcon] at hlen
          rw [infoPath_length] at hlen
          omega
      show listdir ((fs ++ add).filter
          (fun e => decide (e.1 ≠ p ++ ["course_info.txt"])) ++
          [(p ++ ["course_info.txt"], Entry.file (renderInfo r))]) p =
        ["course_info.txt"]
      rw [hfilter, listdir_append, listdir_append, hnochild, hnoadd]
      show listdir [(p ++ ["course_info.txt"], Entry.file (renderInfo r))] p =
        ["course_info.txt"]
      unfold listdir
      rw [List.filterMap_cons]
      rw [childName_append]
      rfl
    · exact lookupFS_writeFile_self _ _ _

/-- Witness for C4 (amended): both branches at concrete inputs — a no-op on
an existing path, and the claim's scenario of creating {coursename: CS314}
in an empty tree, whose descriptor content is "coursename: CS314\n". -/
theorem C4_create_folder_witness :
    create_folder_with_info [((["CS314"] : Path), Entry.dir)] ["CS314"]
        [("coursename", "CS314")] =
      some ([((["CS314"] : Path), Entry.dir)],
            [Event.folderAlreadyExists ["CS314"]]) ∧
    (∃ fs₂, create_folder_with_info [] ["CS314"] [("coursename", "CS314")] =
        some (fs₂, [Event.folderCreated ["CS314"],
                    Event.infoFileCreated (["CS314"] ++ ["course_info.txt"])]) ∧
      lookupFS fs₂ ["CS314"] = some Entry.dir ∧
      listdir fs₂ ["CS314"] = ["course_info.txt"] ∧
      lookupFS fs₂ (["CS314"] ++ ["course_info.txt"]) =
        some (Entry.file (String.join
          ([("coursename", "CS314")].map
            (fun kv => kv.1 ++ ": " ++ kv.2 ++ "\n"))))) :=
  ⟨(C4_create_folder [((["CS314"] : Path), Entry.dir)] ["CS314"]
      [("coursename", "CS314")]).1 (by decide),
   (C4_create_folder [] ["CS314"] [("coursename", "CS314")]).2
      (by decide) (by decide) (by decide) (by decide)⟩

/-- Claim C9: a regular file lying directly under the semester path is never
deleted (nor altered) by synchronize_directories, for every desired set:
the existing set is filtered to directories before the deletion pass, so
only scan-time subdirectories are ever deletion candidates. -/
theorem C9_file_under_semester_preserved (fs : FS) (od : Path) (sem : String)
    (courses : List Course) (fs' : FS) (ev : List Event) (x s : String)
    (hrun : synchronize_directories fs od sem courses = some (fs', ev))
    (hfile : lookupFS fs ((od ++ [sem]) ++ [x]) = some (Entry.file s)) :
    lookupFS fs' ((od ++ [sem]) ++ [x]) = some (Entry.file s) := by
  obtain ⟨ex, names, fsA, evA, evB, hex, hnames, hcl, hdl, rfl⟩ := synchronize_inv hrun
  have hA : lookupFS fsA ((od ++ [sem]) ++ [x]) = some (Entry.file s) :=
    createLoop_shallow courses fs fsA evA hcl _ _ (by simp) hfile
  have hframe : lookupFS fs' ((od ++ [sem]) ++ [x]) =
      lookupFS fsA ((od ++ [sem]) ++ [x]) := by
    refine deleteLoop_frame ex fsA fs' evB hdl _ ?_
    intro e he hmem hcon
    have hee : e = x := prefix_snoc_snoc hcon
    subst hee
    have hdir := mem_get_existing_isdir hex he
    rw [hfile] at hdir
    exact absurd hdir (by simp)
  rw [hframe, hA]

/-- Witness for C9: a file n.txt directly under the semester path survives a
run with an empty desired set. -/
theorem C9_file_under_semester_preserved_witness :
    lookupFS
      [((["od"] : Path), Entry.dir), ((["od", "S"] : Path), Entry.dir),
       ((["od", "S", "n.txt"] : Path), Entry.file "z")]
      ((["od"] ++ ["S"]) ++ ["n.txt"]) = some (Entry.file "z") :=
  C9_file_under_semester_preserved
    [((["od"] : Path), Entry.dir), ((["od", "S"] : Path), Entry.dir),
     ((["od", "S", "n.txt"] : Path), Entry.file "z")]
    ["od"] "S" []
    [((["od"] : Path), Entry.dir), ((["od", "S"] : Path), Entry.dir),
     ((["od", "S", "n.txt"] : Path), Entry.file "z")]
    [] "n.txt" "z" (by decide) (by decide)

/-- Claim C10: on a well-formed store, when the semester path does not exist
and the desired set is non-empty, creating the first course's folder also
creates the semester directory and all missing intermediates, so after a
completed synchronization the semester path exists as a directory. -/
theorem C10_semester_path_created (fs : FS) (od : Path) (sem : String)
    (courses : List Course) (fs' : FS) (ev : List Event)
    (hwf : wf fs = true)
    (hnex : path_exists fs (od ++ [sem]) = false)
    (hne : courses ≠ [])
    (hrun : synchronize_directories fs od sem courses = some (fs', ev)) :
    isdir fs' (od ++ [sem]) = true := by
  obtain ⟨ex, names, fsA, evA, evB, hex, hnames, hcl, hdl, rfl⟩ := synchronize_inv hrun
  have hex0 : ex = [] := by
    rw [get_existing_eq_nil hnex] at hex
    exact (Option.some.inj hex).symm
  subst hex0
  cases courses with
  | nil => exact absurd rfl hne
  | cons c rest =>
    obtain ⟨n, hn, hcase⟩ := createLoop_cons_inv hcl
    rcases hcase with ⟨hmem, -⟩ | ⟨-, fs₁, ev₁, ev₂, hc, hrest, -⟩
    · simp at hmem
    · rcases create_inv hc with ⟨hexn, -, -⟩ | ⟨-, fsm, hmd, rfl, -⟩
      · exfalso
        have hdir : isdir fs (od ++ [sem]) = true :=
          wf_parent_isdir hwf (by simp) hexn
        rw [exists_of_isdir hdir] at hnex
        exact absurd hnex (by simp)
      · have hdir₁ : lookupFS fsm (od ++ [sem]) = some .dir :=
          makedirs_lookup_prefix hmd (by simp) (List.prefix_append _ [n])
        have hinfo : (od ++ [sem]) ≠
            ((od ++ [sem]) ++ [n]) ++ ["course_info.txt"] := by
          intro hcon
          have := congrArg List.length hcon
          simp at this
        have hdir₂ : lookupFS
            (writeFile fsm (((od ++ [sem]) ++ [n]) ++ ["course_info.txt"])
              (renderInfo c)) (od ++ [sem]) = some .dir := by
          rw [lookupFS_writeFile_other _ _ _ hinfo]
          exact hdir₁
        have hdirA : lookupFS fsA (od ++ [sem]) = some .dir :=
          createLoop_shallow rest _ fsA ev₂ hrest _ _ (Nat.le_succ _) hdir₂
        have hfs : fsA = fs' := by
          rw [deleteLoop_nil] at hdl
          exact congrArg Prod.fst (Option.some.inj hdl)
        rw [← hfs]
        exact isdir_iff.mpr hdirA

/-- Witness for C10: with only "od" existing, a run with desired [A] creates
od/S as a directory. -/
theorem C10_semester_path_created_witness :
    isdir
      [((["od"] : Path), Entry.dir), ((["od", "S"] : Path), Entry.dir),
       ((["od", "S", "A"] : Path), Entry.dir),
       ((["od", "S", "A", "course_info.txt"] : Path), Entry.file "coursename: A\n")]
      (["od"] ++ ["S"]) = true :=
  C10_semester_path_created [((["od"] : Path), Entry.dir)] ["od"] "S"
    [[("coursename", "A")]]
    [((["od"] : Path), Entry.dir), ((["od", "S"] : Path), Entry.dir),
     ((["od", "S", "A"] : Path), Entry.dir),
     ((["od", "S", "A", "course_info.txt"] : Path), Entry.file "coursename: A\n")]
    [Event.folderCreated ["od", "S", "A"],
     Event.infoFileCreated ["od", "S", "A", "course_info.txt"]]
    (by decide) (by decide) (by decide) (by decide)

theorem is_directory_empty_congr {fs₁ fs₂ : FS} {d : Path}
    (hl : lookupFS fs₁ d = lookupFS fs₂ d) (hld : listdir fs₁ d = listdir fs₂ d) :
    is_directory_empty fs₁ d = is_directory_empty fs₂ d := by
  unfold is_directory_empty path_exists isdir
  rw [hl, hld]

theorem nonempty_of_is_directory_empty_false {fs : FS} {d : Path}
    (hdir : lookupFS fs d = some .dir) (h : is_directory_empty fs d = false) :
    listdir fs d ≠ [] := by
  intro hnil
  have hexx : path_exists fs d = true := path_exists_iff.mpr ⟨_, hdir⟩
  have hdd : isdir fs d = true := isdir_iff.mpr hdir
  unfold is_directory_empty at h
  rw [if_pos (by rw [hexx, hdd]; rfl), hnil] at h
  simp at h

theorem snoc_snoc_ne {sp : Path} {e m x y : String} (hem : e ≠ m) :
    (sp ++ [e]) ++ [x] ≠ (sp ++ [m]) ++ [y] := by
  intro hcon
  have h₁ : (sp ++ [e]) <+: ((sp ++ [m]) ++ [y]) := hcon ▸ List.prefix_append _ _
  exact hem (prefix_snoc_eq h₁ (List.prefix_append _ _))

theorem snoc_child_not_prefix {sp : Path} {e x m : String} :
    ¬ (((sp ++ [e]) ++ [x]) <+: (sp ++ [m])) := by
  intro h
  have := h.length_le
  simp at this

/-- Claim C1 counterexample: with an existing FILE named A directly under
the semester path and desired set [{coursename: A}], the run completes
(provisioning no-ops because the path exists), yet A does not exist as a
folder afterwards — it is still a file — refuting "every coursename in D
exists as a folder". -/
theorem C1_counterexample :
    synchronize_directories
      [((["od"] : Path), Entry.dir), ((["od", "S"] : Path), Entry.dir),
       ((["od", "S", "A"] : Path), Entry.file "x")]
      ["od"] "S" [[("coursename", "A")]] =
      some ([((["od"] : Path), Entry.dir), ((["od", "S"] : Path), Entry.dir),
             ((["od", "S", "A"] : Path), Entry.file "x")],
            [Event.folderAlreadyExists ["od", "S", "A"]]) ∧
    isdir
      [((["od"] : Path), Entry.dir), ((["od", "S"] : Path), Entry.dir),
       ((["od", "S", "A"] : Path), Entry.file "x")]
      ["od", "S", "A"] = false := by decide

/-- Claim C1 (amended): after a completed synchronization, every coursename
in the desired set exists under the semester path — as a folder, unless an
entry of that name already existed as a non-directory, in which case that
entry is left unchanged — and every scan-time existing directory name not
among the desired coursenames either no longer exists (if its directory was
empty) or still exists with its whole subtree unchanged (if non-empty). -/
theorem C1_sync_invariant (fs : FS) (od : Path) (sem : String)
    (courses : List Course) (fs' : FS) (ev : List Event)
    (ex names : List String)
    (hrun : synchronize_directories fs od sem courses = some (fs', ev))
    (hex : get_existing_directories fs (od ++ [sem]) = some ex)
    (hnames : coursenames? courses = some names) :
    (∀ c ∈ courses, ∀ n, coursename? c = some n →
      path_exists fs' ((od ++ [sem]) ++ [n]) = true ∧
      (isdir fs' ((od ++ [sem]) ++ [n]) = true ∨
        lookupFS fs' ((od ++ [sem]) ++ [n]) = lookupFS fs ((od ++ [sem]) ++ [n]))) ∧
    (∀ e ∈ ex, e ∉ names →
      (is_directory_empty fs ((od ++ [sem]) ++ [e]) = true →
        path_exists fs' ((od ++ [sem]) ++ [e]) = false) ∧
      (is_directory_empty fs ((od ++ [sem]) ++ [e]) = false →
        (∀ q, ((od ++ [sem]) ++ [e]) <+: q → lookupFS fs' q = lookupFS fs q) ∧
        (∀ r, ((od ++ [sem]) ++ [e]) <+: r → listdir fs' r = listdir fs r))) := by
  obtain ⟨ex', names', fsA, evA, evB, hex', hnames', hcl, hdl, rfl⟩ :=
    synchronize_inv hrun
  have hexx : ex = ex' := Option.some.inj (hex.symm.trans hex')
  subst hexx
  have hnn : names = names' := Option.some.inj (hnames.symm.trans hnames')
  subst hnn
  have hExists : ∀ m ∈ ex, path_exists fs ((od ++ [sem]) ++ [m]) = true :=
    fun m hm => path_exists_iff.mpr ⟨_, mem_get_existing_isdir hex hm⟩
  constructor
  · -- desired-set part
    intro c hc n hn
    have hnmem : n ∈ names := name_mem_of_coursenames hnames c hc n hn
    have hexA : path_exists fsA ((od ++ [sem]) ++ [n]) = true :=
      createLoop_exists_names courses fs fsA evA hExists hcl c hc n hn
    have hframe : lookupFS fs' ((od ++ [sem]) ++ [n]) =
        lookupFS fsA ((od ++ [sem]) ++ [n]) := by
      refine deleteLoop_frame ex fsA fs' evB hdl _ ?_
      intro e he hmem hcon
      exact hmem ((prefix_snoc_snoc hcon) ▸ hnmem)
    constructor
    · obtain ⟨k, hk⟩ := path_exists_iff.mp hexA
      exact path_exists_iff.mpr ⟨k, by rw [hframe]; exact hk⟩
    · rcases createLoop_dir_or_same courses fs fsA evA hcl
        ((od ++ [sem]) ++ [n]) (by simp) with hsame | hdir
      · exact Or.inr (by rw [hframe, hsame])
      · exact Or.inl (isdir_iff.mpr (by rw [hframe]; exact hdir))
  · -- existing-set part
    intro e he hmem
    have hdir0 : lookupFS fs ((od ++ [sem]) ++ [e]) = some .dir :=
      mem_get_existing_isdir hex he
    have hme : ∀ m, m ∉ ex → m ≠ e := fun m hm hcon => hm (hcon ▸ he)
    have hlkA : lookupFS fsA ((od ++ [sem]) ++ [e]) =
        lookupFS fs ((od ++ [sem]) ++ [e]) := by
      refine createLoop_frame courses fs fsA evA hcl _ ?_
      intro c' hc' m hm hmex
      constructor
      · rintro ⟨-, hpfx⟩
        exact hme m hmex (prefix_snoc_snoc hpfx).symm
      · intro hcon
        have := congrArg List.length hcon
        simp at this
    have hldA : listdir fsA ((od ++ [sem]) ++ [e]) =
        listdir fs ((od ++ [sem]) ++ [e]) := by
      refine createLoop_listdir_frame courses fs fsA evA hcl _ ?_
      intro c' hc' m hm hmex
      constructor
      · intro x
        exact snoc_child_not_prefix
      · intro x
        exact snoc_snoc_ne (fun hcon => hme m hmex hcon.symm)
    have hempA : is_directory_empty fsA ((od ++ [sem]) ++ [e]) =
        is_directory_empty fs ((od ++ [sem]) ++ [e]) :=
      is_directory_empty_congr hlkA hldA
    constructor
    · -- empty: deleted
      intro hempty
      exact deleteLoop_empty_deleted ex fsA fs' evB hdl e he hmem
        (by rw [hempA]; exact hempty)
    · -- non-empty: subtree unchanged
      intro hfalse
      have hne0 : listdir fs ((od ++ [sem]) ++ [e]) ≠ [] :=
        nonempty_of_is_directory_empty_false hdir0 hfalse
      have hdirA : lookupFS fsA ((od ++ [sem]) ++ [e]) = some .dir := by
        rw [hlkA]
        exact hdir0
      have hneA : listdir fsA ((od ++ [sem]) ++ [e]) ≠ [] := by
        rw [hldA]
        exact hne0
      obtain ⟨hq, hr⟩ :=
        deleteLoop_subtree_preserved ex fsA fs' evB hdl hmem hdirA hneA
      have hlkQ : ∀ q, ((od ++ [sem]) ++ [e]) <+: q →
          lookupFS fsA q = lookupFS fs q := by
        intro q hq'
        refine createLoop_frame courses fs fsA evA hcl _ ?_
        intro c' hc' m hm hmex
        constructor
        · rintro ⟨-, hpfx⟩
          exact hme m hmex (prefix_snoc_snoc (hq'.trans hpfx)).symm
        · intro hcon
          have : ((od ++ [sem]) ++ [e]) <+:
              (((od ++ [sem]) ++ [m]) ++ ["course_info.txt"]) := hcon ▸ hq'
          exact hme m hmex (prefix_snoc_eq this (List.prefix_append _ _)).symm
      have hldQ : ∀ r, ((od ++ [sem]) ++ [e]) <+: r →
          listdir fsA r = listdir fs r := by
        intro r hr'
        refine createLoop_listdir_frame courses fs fsA evA hcl _ ?_
        intro c' hc' m hm hmex
        constructor
        · intro x hpfx
          exact hme m hmex
            (prefix_snoc_snoc ((hr'.trans (List.prefix_append r [x])).trans hpfx)).symm
        · intro x hcon
          have : ((od ++ [sem]) ++ [e]) <+:
              (((od ++ [sem]) ++ [m]) ++ ["course_info.txt"]) :=
            hcon ▸ (hr'.trans (List.prefix_append r [x]))
          exact hme m hmex (prefix_snoc_eq this (List.prefix_append _ _)).symm
      exact ⟨fun q hq' => (hq q hq').trans (hlkQ q hq'),
             fun r hr' => (hr r hr').trans (hldQ r hr')⟩

/-- Witness for C1 (amended): desired [A], existing [B (empty)]: after the
run A exists as a folder and B no longer exists. -/
theorem C1_sync_invariant_witness :
    path_exists
      [((["od"] : Path), Entry.dir), ((["od", "S"] : Path), Entry.dir),
       ((["od", "S", "A"] : Path), Entry.dir),
       ((["od", "S", "A", "course_info.txt"] : Path), Entry.file "coursename: A\n")]
      ((["od"] ++ ["S"]) ++ ["A"]) = true ∧
    path_exists
      [((["od"] : Path), Entry.dir), ((["od", "S"] : Path), Entry.dir),
       ((["od", "S", "A"] : Path), Entry.dir),
       ((["od", "S", "A", "course_info.txt"] : Path), Entry.file "coursename: A\n")]
      ((["od"] ++ ["S"]) ++ ["B"]) = false :=
  ⟨((C1_sync_invariant
      [((["od"] : Path), Entry.dir), ((["od", "S"] : Path), Entry.dir),
       ((["od", "S", "B"] : Path), Entry.dir)]
      ["od"] "S" [[("coursename", "A")]]
      [((["od"] : Path), Entry.dir), ((["od", "S"] : Path), Entry.dir),
       ((["od", "S", "A"] : Path), Entry.dir),
       ((["od", "S", "A", "course_info.txt"] : Path), Entry.file "coursename: A\n")]
      [Event.folderCreated ["od", "S", "A"],
       Event.infoFileCreated ["od", "S", "A", "course_info.txt"],
       Event.deletedDirectory ["od", "S", "B"]]
      ["B"] ["A"] (by decide) (by decide) (by decide)).1
      [("coursename", "A")] (by decide) "A" (by decide)).1,
   ((C1_sync_invariant
      [((["od"] : Path), Entry.dir), ((["od", "S"] : Path), Entry.dir),
       ((["od", "S", "B"] : Path), Entry.dir)]
      ["od"] "S" [[("coursename", "A")]]
      [((["od"] : Path), Entry.dir), ((["od", "S"] : Path), Entry.dir),
       ((["od", "S", "A"] : Path), Entry.dir),
       ((["od", "S", "A", "course_info.txt"] : Path), Entry.file "coursename: A\n")]
      [Event.folderCreated ["od", "S", "A"],
       Event.infoFileCreated ["od", "S", "A", "course_info.txt"],
       Event.deletedDirectory ["od", "S", "B"]]
      ["B"] ["A"] (by decide) (by decide) (by decide)).2
      "B" (by decide) (by decide)).1 (by decide)⟩

/-- Claim C5: every existing folder name not among the desired coursenames
whose directory is non-empty is skipped: the run emits the non-fatal
"not empty" diagnostic, leaves the directory and its entire subtree exactly
as found, and still completes (the hypothesis `hrun` is a completed run
whose event log the diagnostic belongs to). -/
theorem C5_nonempty_skipped (fs : FS) (od : Path) (sem : String)
    (courses : List Course) (fs' : FS) (ev : List Event)
    (ex names : List String) (e : String)
    (hrun : synchronize_directories fs od sem courses = some (fs', ev))
    (hex : get_existing_directories fs (od ++ [sem]) = some ex)
    (hnames : coursenames? courses = some names)
    (he : e ∈ ex) (hmem : e ∉ names)
    (hfalse : is_directory_empty fs ((od ++ [sem]) ++ [e]) = false) :
    Event.directoryNotEmpty e ∈ ev ∧
    path_exists fs' ((od ++ [sem]) ++ [e]) = true ∧
    (∀ q, ((od ++ [sem]) ++ [e]) <+: q → lookupFS fs' q = lookupFS fs q) ∧
    (∀ r, ((od ++ [sem]) ++ [e]) <+: r → listdir fs' r = listdir fs r) := by
  obtain ⟨ex', names', fsA, evA, evB, hex', hnames', hcl, hdl, rfl⟩ :=
    synchronize_inv hrun
  have hexx : ex = ex' := Option.some.inj (hex.symm.trans hex')
  subst hexx
  have hnn : names = names' := Option.some.inj (hnames.symm.trans hnames')
  subst hnn
  have hdir0 : lookupFS fs ((od ++ [sem]) ++ [e]) = some .dir :=
    mem_get_existing_isdir hex he
  have hme : ∀ m, m ∉ ex → m ≠ e := fun m hm hcon => hm (hcon ▸ he)
  have hlkQ : ∀ q, ((od ++ [sem]) ++ [e]) <+: q →
      lookupFS fsA q = lookupFS fs q := by
    intro q hq'
    refine createLoop_frame courses fs fsA evA hcl _ ?_
    intro c' hc' m hm hmex
    constructor
    · rintro ⟨-, hpfx⟩
      exact hme m hmex (prefix_snoc_snoc (hq'.trans hpfx)).symm
    · intro hcon
      have : ((od ++ [sem]) ++ [e]) <+:
          (((od ++ [sem]) ++ [m]) ++ ["course_info.txt"]) := hcon ▸ hq'
      exact hme m hmex (prefix_snoc_eq this (List.prefix_append _ _)).symm
  have hldQ : ∀ r, ((od ++ [sem]) ++ [e]) <+: r →
      listdir fsA r = listdir fs r := by
    intro r hr'
    refine createLoop_listdir_frame courses fs fsA evA hcl _ ?_
    intro c' hc' m hm hmex
    constructor
    · intro x hpfx
      exact hme m hmex
        (prefix_snoc_snoc ((hr'.trans (List.prefix_append r [x])).trans hpfx)).symm
    · intro x hcon
      have : ((od ++ [sem]) ++ [e]) <+:
          (((od ++ [sem]) ++ [m]) ++ ["course_info.txt"]) :=
        hcon ▸ (hr'.trans (List.prefix_append r [x]))
      exact hme m hmex (prefix_snoc_eq this (List.prefix_append _ _)).symm
  have hne0 : listdir fs ((od ++ [sem]) ++ [e]) ≠ [] :=
    nonempty_of_is_directory_empty_false hdir0 hfalse
  have hdirA : lookupFS fsA ((od ++ [sem]) ++ [e]) = some .dir := by
    rw [hlkQ _ (List.prefix_refl _)]
    exact hdir0
  have hneA : listdir fsA ((od ++ [sem]) ++ [e]) ≠ [] := by
    rw [hldQ _ (List.prefix_refl _)]
    exact hne0
  obtain ⟨hq, hr⟩ := deleteLoop_subtree_preserved ex fsA fs' evB hdl hmem hdirA hneA
  have hlk' : ∀ q, ((od ++ [sem]) ++ [e]) <+: q → lookupFS fs' q = lookupFS fs q :=
    fun q hq' => (hq q hq').trans (hlkQ q hq')
  refine ⟨?_, ?_, hlk', fun r hr' => (hr r hr').trans (hldQ r hr')⟩
  · exact List.mem_append.mpr
      (Or.inr (deleteLoop_diag_mem ex fsA fs' evB hdl he hmem hdirA hneA))
  · refine path_exists_iff.mpr ⟨.dir, ?_⟩
    rw [hlk' _ (List.prefix_refl _)]
    exact hdir0

/-- Witness for C5: the spec scenario — existing OLD101 containing a file,
desired set empty: OLD101 is retained and the diagnostic is emitted. -/
theorem C5_nonempty_skipped_witness :
    Event.directoryNotEmpty "OLD101" ∈ [Event.directoryNotEmpty "OLD101"] ∧
    path_exists
      [((["od"] : Path), Entry.dir), ((["od", "S"] : Path), Entry.dir),
       ((["od", "S", "OLD101"] : Path), Entry.dir),
       ((["od", "S", "OLD101", "f.txt"] : Path), Entry.file "z")]
      ((["od"] ++ ["S"]) ++ ["OLD101"]) = true :=
  ⟨(C5_nonempty_skipped
      [((["od"] : Path), Entry.dir), ((["od", "S"] : Path), Entry.dir),
       ((["od", "S", "OLD101"] : Path), Entry.dir),
       ((["od", "S", "OLD101", "f.txt"] : Path), Entry.file "z")]
      ["od"] "S" []
      [((["od"] : Path), Entry.dir), ((["od", "S"] : Path), Entry.dir),
       ((["od", "S", "OLD101"] : Path), Entry.dir),
       ((["od", "S", "OLD101", "f.txt"] : Path), Entry.file "z")]
      [Event.directoryNotEmpty "OLD101"] ["OLD101"] [] "OLD101"
      (by decide) (by decide) (by decide) (by decide) (by decide) (by decide)).1,
   (C5_nonempty_skipped
      [((["od"] : Path), Entry.dir), ((["od", "S"] : Path), Entry.dir),
       ((["od", "S", "OLD101"] : Path), Entry.dir),
       ((["od", "S", "OLD101", "f.txt"] : Path), Entry.file "z")]
      ["od"] "S" []
      [((["od"] : Path), Entry.dir), ((["od", "S"] : Path), Entry.dir),
       ((["od", "S", "OLD101"] : Path), Entry.dir),
       ((["od", "S", "OLD101", "f.txt"] : Path), Entry.file "z")]
      [Event.directoryNotEmpty "OLD101"] ["OLD101"] [] "OLD101"
      (by decide) (by decide) (by decide) (by decide) (by decide) (by decide)).2.1⟩

/-- Claim C2: synchronization is idempotent — on a well-formed store, running
synchronize_directories a second time with the same desired set immediately
after a completed first run performs zero additional filesystem mutations:
the second run completes, leaves the filesystem exactly as the first run
left it, and its event log contains no folder creation, no descriptor-file
write, and no deletion. -/
theorem C2_sync_idempotent (fs : FS) (od : Path) (sem : String)
    (courses : List Course) (fs₁ : FS) (ev₁ : List Event)
    (hwf : wf fs = true)
    (hrun : synchronize_directories fs od sem courses = some (fs₁, ev₁)) :
    ∃ ev₂, synchronize_directories fs₁ od sem courses = some (fs₁, ev₂) ∧
      ev₂.filter isMutation = [] := by
  obtain ⟨ex, names, fsA, evA, evB, hex, hnames, hcl, hdl, rfl⟩ :=
    synchronize_inv hrun
  have hsp : (od ++ [sem] : Path) ≠ [] := by simp
  have hExists : ∀ m ∈ ex, path_exists fs ((od ++ [sem]) ++ [m]) = true :=
    fun m hm => path_exists_iff.mpr ⟨_, mem_get_existing_isdir hex hm⟩
  -- the semester path is still a directory or still absent after the run
  have hsp_lk : lookupFS fs₁ (od ++ [sem]) = none ∨
      lookupFS fs₁ (od ++ [sem]) = some .dir := by
    have hdl_sp : lookupFS fs₁ (od ++ [sem]) = lookupFS fsA (od ++ [sem]) := by
      refine deleteLoop_frame ex fsA fs₁ evB hdl _ ?_
      intro e he hmem hcon
      have := hcon.length_le
      simp at this
    have hcl_sp := createLoop_dir_or_same courses fs fsA evA hcl
      (od ++ [sem]) (Nat.le_succ _)
    rcases get_existing_inv hex with ⟨hnex, -⟩ | ⟨hdir, -⟩
    · rcases hcl_sp with hsame | hdir'
      · rw [hdl_sp, hsame]
        exact Or.inl (path_exists_eq_false_iff.mp hnex)
      · rw [hdl_sp]
        exact Or.inr hdir'
    · rcases hcl_sp with hsame | hdir'
      · rw [hdl_sp, hsame]
        exact Or.inr (isdir_iff.mp hdir)
      · rw [hdl_sp]
        exact Or.inr hdir'
  obtain ⟨ex₂, hex₂⟩ : ∃ ex₂, get_existing_directories fs₁ (od ++ [sem]) = some ex₂ := by
    rcases hsp_lk with hnone | hdir
    · exact ⟨[], get_existing_eq_nil (path_exists_eq_false_iff.mpr hnone)⟩
    · refine ⟨(listdir fs₁ (od ++ [sem])).filter
        (fun d => isdir fs₁ ((od ++ [sem]) ++ [d])), ?_⟩
      unfold get_existing_directories
      rw [if_pos (path_exists_iff.mpr ⟨_, hdir⟩), if_pos (isdir_iff.mpr hdir)]
  -- every desired course folder exists after the first run
  have hAll : ∀ c ∈ courses, ∃ n, coursename? c = some n ∧
      path_exists fs₁ ((od ++ [sem]) ++ [n]) = true := by
    intro c hc
    obtain ⟨n, hn, hnmem⟩ := coursenames_forall hnames c hc
    have hexA : path_exists fsA ((od ++ [sem]) ++ [n]) = true :=
      createLoop_exists_names courses fs fsA evA hExists hcl c hc n hn
    have hframe : lookupFS fs₁ ((od ++ [sem]) ++ [n]) =
        lookupFS fsA ((od ++ [sem]) ++ [n]) := by
      refine deleteLoop_frame ex fsA fs₁ evB hdl _ ?_
      intro e he hmem hcon
      exact hmem ((prefix_snoc_snoc hcon) ▸ hnmem)
    obtain ⟨k, hk⟩ := path_exists_iff.mp hexA
    exact ⟨n, hn, path_exists_iff.mpr ⟨k, by rw [hframe]; exact hk⟩⟩
  obtain ⟨evC, hevC, hmutC⟩ := createLoop_noop courses fs₁ hAll
  -- every run-2 deletion candidate is a surviving non-empty directory
  have hSkip : ∀ e ∈ ex₂, e ∉ names →
      is_directory_empty fs₁ ((od ++ [sem]) ++ [e]) = false := by
    intro e he₂ hmem
    have hdir₁ : lookupFS fs₁ ((od ++ [sem]) ++ [e]) = some .dir :=
      mem_get_existing_isdir hex₂ he₂
    have hdirA : lookupFS fsA ((od ++ [sem]) ++ [e]) = some .dir :=
      deleteLoop_down ex fsA fs₁ evB hdl _ _ hdir₁
    have hlkA : lookupFS fsA ((od ++ [sem]) ++ [e]) =
        lookupFS fs ((od ++ [sem]) ++ [e]) := by
      refine createLoop_frame courses fs fsA evA hcl _ ?_
      intro c' hc' m hm hmex
      have hmn : m ∈ names := name_mem_of_coursenames hnames c' hc' m hm
      have hne : e ≠ m := fun hcon => hmem (hcon ▸ hmn)
      constructor
      · rintro ⟨-, hpfx⟩
        exact hne (prefix_snoc_snoc hpfx)
      · intro hcon
        have := congrArg List.length hcon
        simp at this
    have hdir0 : lookupFS fs ((od ++ [sem]) ++ [e]) = some .dir := by
      rw [← hlkA]
      exact hdirA
    have heEx : e ∈ ex := dir_child_mem_get_existing hwf hsp hex hdir0
    by_cases hempA : is_directory_empty fsA ((od ++ [sem]) ++ [e]) = true
    · exfalso
      have := deleteLoop_empty_deleted ex fsA fs₁ evB hdl e heEx hmem hempA
      rw [path_exists_iff.mpr ⟨_, hdir₁⟩] at this
      exact absurd this (by simp)
    · have hfalseA : is_directory_empty fsA ((od ++ [sem]) ++ [e]) = false := by
        simpa using hempA
      have hneA : listdir fsA ((od ++ [sem]) ++ [e]) ≠ [] :=
        nonempty_of_is_directory_empty_false hdirA hfalseA
      obtain ⟨-, hr⟩ :=
        deleteLoop_subtree_preserved ex fsA fs₁ evB hdl hmem hdirA hneA
      refine is_directory_empty_false_intro hdir₁ ?_
      rw [hr _ (List.prefix_refl _)]
      exact hneA
  obtain ⟨evD, hevD, hmutD⟩ := deleteLoop_all_skip ex₂ fs₁ hSkip
  refine ⟨evC ++ evD, synchronize_mk hex₂ hnames hevC hevD, ?_⟩
  rw [List.filter_append]
  have h₁ : evC.filter isMutation = [] := by
    rw [List.filter_eq_nil_iff]
    intro a ha
    rw [hmutC a ha]
    simp
  have h₂ : evD.filter isMutation = [] := by
    rw [List.filter_eq_nil_iff]
    intro a ha
    rw [hmutD a ha]
    simp
  rw [h₁, h₂]
  rfl

/-- Witness for C2: a first run creates od/S/A; running again mutates
nothing and returns the same filesystem. -/
theorem C2_sync_idempotent_witness :
    ∃ ev₂, synchronize_directories
        [((["od"] : Path), Entry.dir), ((["od", "S"] : Path), Entry.dir),
         ((["od", "S", "A"] : Path), Entry.dir),
         ((["od", "S", "A", "course_info.txt"] : Path), Entry.file "coursename: A\n")]
        ["od"] "S" [[("coursename", "A")]] =
      some ([((["od"] : Path), Entry.dir), ((["od", "S"] : Path), Entry.dir),
             ((["od", "S", "A"] : Path), Entry.dir),
             ((["od", "S", "A", "course_info.txt"] : Path),
               Entry.file "coursename: A\n")], ev₂) ∧
      ev₂.filter isMutation = [] :=
  C2_sync_idempotent [((["od"] : Path), Entry.dir)] ["od"] "S"
    [[("coursename", "A")]]
    [((["od"] : Path), Entry.dir), ((["od", "S"] : Path), Entry.dir),
     ((["od", "S", "A"] : Path), Entry.dir),
     ((["od", "S", "A", "course_info.txt"] : Path), Entry.file "coursename: A\n")]
    [Event.folderCreated ["od", "S", "A"],
     Event.infoFileCreated ["od", "S", "A", "course_info.txt"]]
    (by decide) (by decide)

end Schedules
